import Mathlib

/-!
Shallow embedding of the patch-localisation core of this repository
(`src/util/ts_func_extract.py` and `src/util/cve_meta.py`) and proofs about
the behaviour of its operations.

Modelling conventions:
* Python `str` values are modelled as `List Char` (`Str`); slicing, `find`,
  `splitlines` and friends are implemented with the same semantics.
* Python `int` is `Int` where negative values can occur (hunk line numbers,
  loop depth), `Nat` where the source only ever holds non-negative values.
* Python regular expressions used by the source have no ambiguity requiring
  backtracking search (character classes in consecutive positions are
  disjoint), so each is translated to a deterministic matcher; every such
  translation is justified in its doc comment.
* `re`'s `\s`/`\d`/`\w` classes are modelled over their ASCII members plus
  the common Unicode whitespace; exotic Unicode digits and letters accepted
  by Python's Unicode-aware classes are outside the model.
* Fallible operations (Python list indexing that can raise `IndexError`)
  return `Option`.
-/

namespace Agent

/-- Python string, modelled as a list of characters. -/
abbrev Str := List Char

/-- Opening brace character (written via its code point). -/
def lbrace : Char := Char.ofNat 123

/-- Closing brace character (written via its code point). -/
def rbrace : Char := Char.ofNat 125

/-- Whitespace for Python's `re` class `\s` and for `str.strip()`:
space, tab, newline, carriage return, vertical tab, form feed, the file
separator block, next-line, and the Unicode space characters. -/
def isPySpace (c : Char) : Bool :=
  c.toNat = 32 || c.toNat = 9 || c.toNat = 10 || c.toNat = 13 ||
  c.toNat = 11 || c.toNat = 12 ||
  (28 <= c.toNat && c.toNat <= 31) || c.toNat = 133 || c.toNat = 160 ||
  c.toNat = 5760 || (8192 <= c.toNat && c.toNat <= 8202) ||
  c.toNat = 8232 || c.toNat = 8233 || c.toNat = 8239 || c.toNat = 8287 ||
  c.toNat = 12288

/-- ASCII decimal digit, modelling `re`'s `\d`. -/
def isDigitCh (c : Char) : Bool := '0' ≤ c && c ≤ '9'

/-- Word character for `re`'s `\w` and `\b` (ASCII fragment). -/
def isWordCh (c : Char) : Bool :=
  ('a' ≤ c && c ≤ 'z') || ('A' ≤ c && c ≤ 'Z') || isDigitCh c || c = '_'

/-- Numeric value of a digit string, as built by Python `int()` on the
digits captured by `\d+`. -/
def digitsToNat (s : Str) : Nat :=
  s.foldl (fun acc c => 10 * acc + (c.toNat - '0'.toNat)) 0

/-- UTF-8 encoding of one character (standard 1-4 byte encoding; Lean's
`Char` excludes surrogates, so Python's `errors='ignore'` never drops
anything representable here). -/
def utf8Bytes (c : Char) : List Nat :=
  let n := c.toNat
  if n < 128 then [n]
  else if n < 2048 then [192 + n / 64, 128 + n % 64]
  else if n < 65536 then [224 + n / 4096, 128 + (n / 64) % 64, 128 + n % 64]
  else [240 + n / 262144, 128 + (n / 4096) % 64, 128 + (n / 64) % 64, 128 + n % 64]

/-- The bytes of `text.encode("utf-8")`. -/
def utf8Encode (s : Str) : List Nat := (s.map utf8Bytes).flatten

/-- `len(text.encode("utf-8"))`: UTF-8 byte length of a string. -/
def utf8Len (s : Str) : Nat := (utf8Encode s).length

/-! ## Hunk header parsing (`_HUNK_RE`, `extract_old_ranges`)

The source compiles the pattern
`@@\s*-(?P<old_start>\d+)(?:,(?P<old_count>\d+))?\s+\+(?P<new_start>\d+)(?:,(?P<new_count>\d+))?\s*@@`
and walks a diff with `finditer`.  The pattern needs no backtracking search:
every pair of adjacent sub-patterns draws from disjoint character classes
(whitespace, digits, and the literals `-,+@` never overlap), so greedy
left-to-right consumption is equivalent to the regex engine's behaviour.
The only candidate for backtracking, `(?:,(\d+))?` followed by `\s`, cannot
succeed by skipping the optional group when a `,` is present, because `\s`
does not match `,`; this justifies the committed choice in `parseOptCount`.
-/

/-- Greedy `\d+`: the captured number and the rest of the input. -/
def parseDigits (l : Str) : Option (Nat × Str) :=
  if (l.takeWhile isDigitCh).isEmpty then none
  else some (digitsToNat (l.takeWhile isDigitCh), l.dropWhile isDigitCh)

/-- The optional group `(?:,(\d+))?`.  When the next character is `,` the
group must capture digits or the whole match fails (see section comment). -/
def parseOptCount (l : Str) : Option (Option Nat × Str) :=
  match l with
  | ',' :: r =>
    match parseDigits r with
    | none => none
    | some (n, rem) => some (some n, rem)
  | _ => some (none, l)

/-- Everything of `_HUNK_RE` after the leading `@@`:
`\s*-(\d+)(?:,(\d+))?\s+\+(\d+)(?:,(\d+))?\s*@@`.  Returns
`old_start`, the optional `old_count`, and the rest of the input after the
match (the new-file numbers are matched but, as in the source, unused). -/
def matchHunkCore (r1 : Str) : Option (Nat × Option Nat × Str) :=
  match r1.dropWhile isPySpace with
  | '-' :: r3 =>
    match parseDigits r3 with
    | none => none
    | some (os, r4) =>
      match parseOptCount r4 with
      | none => none
      | some (oc, r5) =>
        match r5 with
        | [] => none
        | c :: r5t =>
          if isPySpace c then
            match r5t.dropWhile isPySpace with
            | '+' :: r7 =>
              match parseDigits r7 with
              | none => none
              | some (_, r8) =>
                match parseOptCount r8 with
                | none => none
                | some (_, r9) =>
                  match r9.dropWhile isPySpace with
                  | '@' :: '@' :: r11 => some (os, oc, r11)
                  | _ => none
            | _ => none
          else none
  | _ => none

/-- A `_HUNK_RE` match attempt anchored at the current position. -/
def matchHunkAt (l : Str) : Option (Nat × Option Nat × Str) :=
  match l with
  | '@' :: '@' :: r1 => matchHunkCore r1
  | _ => none

/-- One `finditer` match of `_HUNK_RE`: span within the scanned text and
the captured old-side numbers. -/
structure HunkMatch where
  startPos : Nat
  endPos : Nat
  oldStart : Nat
  oldCount : Option Nat
deriving DecidableEq, Repr

/-- Fuel-indexed body of the `finditer` scan over the diff text: at each
position attempt a match; on success continue scanning right after the
match (matches never overlap), on failure advance one character.  `pos` is
the absolute position of `l`'s head in the scanned string.  The fuel only
makes the recursion structural (so that terms evaluate); `hunkScanF_congr`
shows any fuel above `l.length` gives the same result. -/
def hunkScanF : Nat → Str → Nat → List HunkMatch
  | 0, _, _ => []
  | fuel + 1, l, pos =>
    match matchHunkAt l with
    | some (os, oc, rem) =>
      ⟨pos, pos + (l.length - rem.length), os, oc⟩ ::
        hunkScanF fuel rem (pos + (l.length - rem.length))
    | none =>
      match l with
      | [] => []
      | _ :: t => hunkScanF fuel t (pos + 1)

/-- The `finditer` match list for `_HUNK_RE` on a diff text. -/
def hunkScan (l : Str) (pos : Nat) : List HunkMatch := hunkScanF (l.length + 1) l pos

/-- The loop body of `extract_old_ranges`: `old_count` defaults to 1 when
the capture is absent; `old_end = old_start + old_count - 1` when
`old_count > 0`, else `old_start - 1`. -/
def oldEndOf (os : Nat) (oc : Option Nat) : Int :=
  if 0 < oc.getD 1 then (os : Int) + oc.getD 1 - 1 else (os : Int) - 1

/-- `extract_old_ranges(patch_diff)` from `src/util/ts_func_extract.py`. -/
def extract_old_ranges (patchDiff : Str) : List (Int × Int) :=
  if patchDiff.isEmpty then []
  else (hunkScan patchDiff 0).map
    (fun m => ((m.oldStart : Int), oldEndOf m.oldStart m.oldCount))

/-! ## Line offsets (`_build_line_offsets`) and `range_to_bytes`

`_build_line_offsets` accumulates `len(ln)` of each `splitlines(True)`
line: these are CHARACTER counts, while `total_len` passed to
`range_to_bytes` is the UTF-8 BYTE length of the encoded source.  The model
keeps both units exactly as the source does.  Python list indexing (which
wraps negative indices and raises when out of range) is `pyGetNat` /
`pyGetLine` returning `Option`. -/

/-- Line-terminator characters of Python `str.splitlines`
(`\n \r \v \f \x1c \x1d \x1e \x85    `; `\r\n` is handled as a
single terminator in `takeLine`). -/
def isLineBreakCh (c : Char) : Bool :=
  c.toNat = 10 || c.toNat = 13 || c.toNat = 11 || c.toNat = 12 ||
  c.toNat = 28 || c.toNat = 29 || c.toNat = 30 || c.toNat = 133 ||
  c.toNat = 8232 || c.toNat = 8233

/-- First line of a text including its terminator, and the rest
(`\r\n` counts as a single two-character terminator, as in Python). -/
def takeLine : Str → Str × Str
  | [] => ([], [])
  | c :: r =>
    if isLineBreakCh c then
      if c = '\r' then
        match r with
        | [] => ([c], r)
        | c2 :: r2 => if c2 = '\n' then ([c, c2], r2) else ([c], r)
      else ([c], r)
    else
      let pr := takeLine r
      (c :: pr.1, pr.2)

/-- Fuel-indexed `str.splitlines(keepends=True)`; each step consumes at
least one character, so fuel `l.length` suffices (`splitKeepF_congr`). -/
def splitKeepF : Nat → Str → List Str
  | 0, _ => []
  | fuel + 1, l =>
    match l with
    | [] => []
    | _ :: _ => (takeLine l).1 :: splitKeepF fuel (takeLine l).2

/-- `text.splitlines(True)`. -/
def splitKeep (l : Str) : List Str := splitKeepF l.length l

/-- The offset-accumulating loop of `_build_line_offsets`: the offset of
each line is the sum of `len(ln)` (character counts) of the lines before
it. -/
def offsetsFrom : Nat → List Str → List Nat
  | _, [] => []
  | pos, ln :: rest => pos :: offsetsFrom (pos + ln.length) rest

/-- `_build_line_offsets(text)` from `src/util/ts_func_extract.py`:
`(line start offsets, splitlines(True) lines)`.  Offsets are in
characters, because the source adds `len(ln)` of `str` values. -/
def _build_line_offsets (text : Str) : List Nat × List Str :=
  (offsetsFrom 0 (splitKeep text), splitKeep text)

/-- Python list index normalisation: negative indices count from the end. -/
def pyIdx (len : Nat) (i : Int) : Int := if i < 0 then (len : Int) + i else i

/-- Python `list[i]` on a list of numbers; `none` models `IndexError`. -/
def pyGetNat (l : List Nat) (i : Int) : Option Nat :=
  if 0 ≤ pyIdx l.length i then l.get? (pyIdx l.length i).toNat else none

/-- Python `list[i]` on a list of lines; `none` models `IndexError`. -/
def pyGetLine (l : List Str) (i : Int) : Option Str :=
  if 0 ≤ pyIdx l.length i then l.get? (pyIdx l.length i).toNat else none

/-- The closure `range_to_bytes(old_start, old_end)` defined inside
`find_functions_for_patch`, over the captured `line_offsets`, `lines` and
`total_len`.  The insertion case (`old_end < old_start`) anchors a
one-character-wide range at line `max(1, old_start)`; the normal case
spans from the start offset of `old_start` to the end of line
`max(old_start, old_end)`, clamped to `total_len`. -/
def range_to_bytes (lineOffsets : List Nat) (lines : List Str) (totalLen : Nat)
    (oldStart oldEnd : Int) : Option (Nat × Nat) :=
  if oldEnd < oldStart then
    (if max 1 oldStart - 1 < (lineOffsets.length : Int)
     then pyGetNat lineOffsets (max 1 oldStart - 1)
     else some totalLen).bind
      (fun startByte => some (startByte, min (startByte + 1) totalLen))
  else
    (if max 1 oldStart - 1 < (lineOffsets.length : Int)
     then pyGetNat lineOffsets (max 1 oldStart - 1)
     else some totalLen).bind
      (fun startByte =>
        (if max oldStart oldEnd - 1 < (lineOffsets.length : Int)
         then (pyGetLine lines (max oldStart oldEnd - 1)).bind
            (fun endLine =>
              (pyGetNat lineOffsets (max oldStart oldEnd - 1)).map
                (fun o => o + endLine.length))
         else some totalLen).bind
          (fun endByte => some (startByte, min endByte totalLen)))

/-! ## Macro block scanner (`_MACRO_HEAD_RE`, `_find_macro_blocks`)

The head pattern `^\s*[A-Z_][A-Z0-9_]*\s*\(` (multiline `^`) is
deterministic: whitespace, the uppercase classes and `(` are pairwise
disjoint, so greedy consumption equals the regex engine's behaviour.
With `re.M`, `^` matches at position 0 and right after each `\n` (only
`\n`); `finditer` therefore only ever succeeds at such positions, and
resumes right after a match.  A match always ends with `(`, never `\n`,
so the position after a match is never a line start. -/

/-- Characters of the class `[A-Z_]`. -/
def isMacroStartCh (c : Char) : Bool := ('A' ≤ c && c ≤ 'Z') || c = '_'

/-- Characters of the class `[A-Z0-9_]`. -/
def isMacroCh (c : Char) : Bool := isMacroStartCh c || isDigitCh c

/-- Attempt of `\s*[A-Z_][A-Z0-9_]*\s*\(` at the current position (after
the `^` anchor already held); returns the rest after the `(`. -/
def matchMacroHead (l : Str) : Option Str :=
  match l.dropWhile isPySpace with
  | [] => none
  | c :: r =>
    if isMacroStartCh c then
      match (r.dropWhile isMacroCh).dropWhile isPySpace with
      | '(' :: rest => some rest
      | _ => none
    else none

/-- Fuel-indexed `finditer` for the macro head pattern.  `pos` is the
absolute position of `l`'s head; `atLS` says whether that position is a
line start (`^` holds there).  Emits `(match start, match length)`.
After a match the next position follows a `(`, so `^` cannot hold there
and the flag is `false`; after advancing over a character `c` the next
position is a line start iff `c` is `\n`. -/
def macroMatchesF : Nat → Str → Nat → Bool → List (Nat × Nat)
  | 0, _, _, _ => []
  | fuel + 1, l, pos, atLS =>
    match l with
    | [] => []
    | c :: t =>
      if atLS then
        (matchMacroHead l).elim (macroMatchesF fuel t (pos + 1) (c == '\n'))
          (fun rest =>
            (pos, l.length - rest.length) ::
              macroMatchesF fuel rest (pos + (l.length - rest.length)) false)
      else macroMatchesF fuel t (pos + 1) (c == '\n')

/-- All `finditer` matches of the macro head pattern on a text. -/
def macroMatches (l : Str) : List (Nat × Nat) := macroMatchesF (l.length + 1) l 0 true

/-- Index of the first occurrence of a character, modelling
`text.find(ch, start)` relative to the suffix starting at `start`. -/
def findCharIdx (c : Char) : Str → Option Nat
  | [] => none
  | x :: r => if x = c then some 0 else (findCharIdx c r).map (fun i => i + 1)

/-- The brace-pairing `while` loop of `_find_macro_blocks`, starting at
the position of the first `{`: counts depth up on `{`, down on `}`, and
returns how many characters were consumed up to and including the `}`
that returns the depth to 0; `none` when the text ends first (the
candidate is discarded). -/
def braceScan : Str → Int → Option Nat
  | [], _ => none
  | c :: r, depth =>
    if c = lbrace then (braceScan r (depth + 1)).map (fun i => i + 1)
    else if c = rbrace then
      if depth - 1 = 0 then some 1
      else (braceScan r (depth - 1)).map (fun i => i + 1)
    else (braceScan r depth).map (fun i => i + 1)

/-- The per-match body of the `_find_macro_blocks` loop: find the first
`{` after the head match, pair braces from it, and convert the character
positions of the block's start and end to UTF-8 byte offsets by encoding
the text prefixes (`len(text[:i].encode('utf-8'))`). -/
def closeBlock (text : Str) (p k : Nat) : Option (Nat × Nat) :=
  match findCharIdx lbrace (text.drop (p + k)) with
  | none => none
  | some bi =>
    match braceScan ((text.drop (p + k)).drop bi) 0 with
    | none => none
    | some n => some (utf8Len (text.take p), utf8Len (text.take (p + k + bi + n)))

/-- `_find_macro_blocks(source_text)` from `src/util/ts_func_extract.py`:
byte ranges of all brace-closed blocks headed by an uppercase macro
invocation at a line start. -/
def _find_macro_blocks (sourceText : Str) : List (Nat × Nat) :=
  if sourceText.isEmpty then []
  else (macroMatches sourceText).filterMap
    (fun pk => closeBlock sourceText pk.1 pk.2)

/-! ## `find_functions_for_patch`

The tree-sitter parse of the source is an external library (not code of
this repository); the loop over `function_definition` nodes reads only
each node's `start_byte` and `end_byte`, so the parse result enters the
model as the parameter `funcNodes : List (Nat × Nat)` (tree-sitter node
spans are non-degenerate: `start_byte < end_byte`; theorems that need
this assume it explicitly).  Snippets are modelled as the byte slices
`source_bytes[start:end]`; the final `bytes.decode("utf-8", errors="ignore")`
is a presentation step that does not affect the list structure, the
emission order or the dedup keys. -/

/-- Python slice `bytes[s:e]` on the encoded source. -/
def pySlice (l : List Nat) (s e : Nat) : List Nat := (l.drop s).take (e - s)

/-- The intersection test of the source, applied to a hunk byte range
`[rs, re)` and a candidate `[s, e)`:
`not (end_byte <= rs or start_byte >= re)`. -/
def codeHit (rs re2 s e : Nat) : Bool := !(decide (e ≤ rs) || decide (re2 ≤ s))

/-- One inner `for` loop of `find_functions_for_patch` over a candidate
list, threading the `seen_funcs` set (membership-only, modelled as a
list) and the emitted snippets, here tagged with their dedup key. -/
def candLoop (srcBytes : List Nat) (rs re2 : Nat) :
    List (Nat × Nat) → List (Nat × Nat) → List ((Nat × Nat) × List Nat) →
    List (Nat × Nat) × List ((Nat × Nat) × List Nat)
  | [], seen, acc => (seen, acc)
  | (s, e) :: rest, seen, acc =>
    if codeHit rs re2 s e then
      if (s, e) ∈ seen then candLoop srcBytes rs re2 rest seen acc
      else candLoop srcBytes rs re2 rest ((s, e) :: seen)
        (acc ++ [((s, e), pySlice srcBytes s e)])
    else candLoop srcBytes rs re2 rest seen acc

/-- The outer `for` loop of `find_functions_for_patch` over the parsed
hunk ranges: convert each to a byte range, skip empty ranges, then run
the function-node loop followed by the macro-block loop (same `seen` and
snippet list).  A `none` from `range_to_bytes` (impossible for ranges
produced by `extract_old_ranges`, see `range_to_bytes_total`) would be a
Python `IndexError` and propagates. -/
def rangesLoop (srcBytes : List Nat) (lineOffsets : List Nat) (lines : List Str)
    (totalLen : Nat) (funcNodes macroBlocks : List (Nat × Nat)) :
    List (Int × Int) → List (Nat × Nat) → List ((Nat × Nat) × List Nat) →
    Option (List (Nat × Nat) × List ((Nat × Nat) × List Nat))
  | [], seen, acc => some (seen, acc)
  | (os, oe) :: rest, seen, acc =>
    (range_to_bytes lineOffsets lines totalLen os oe).bind
      (fun rsre =>
        if rsre.2 ≤ rsre.1 then
          rangesLoop srcBytes lineOffsets lines totalLen funcNodes macroBlocks
            rest seen acc
        else
          let p1 := candLoop srcBytes rsre.1 rsre.2 funcNodes seen acc
          let p2 := candLoop srcBytes rsre.1 rsre.2 macroBlocks p1.1 p1.2
          rangesLoop srcBytes lineOffsets lines totalLen funcNodes macroBlocks
            rest p2.1 p2.2)

/-- `find_functions_for_patch(source_text, patch_diff)` with every
emitted snippet paired with its `(start_byte, end_byte)` dedup key.
`funcNodes` abstracts the tree-sitter `function_definition` spans. -/
def find_functions_for_patch_tagged (funcNodes : List (Nat × Nat))
    (sourceText patchDiff : Str) : Option (List ((Nat × Nat) × List Nat)) :=
  if sourceText.isEmpty || patchDiff.isEmpty then some []
  else
    if (extract_old_ranges patchDiff).isEmpty then some []
    else
      (rangesLoop (utf8Encode sourceText) (offsetsFrom 0 (splitKeep sourceText))
        (splitKeep sourceText) (utf8Encode sourceText).length funcNodes
        (_find_macro_blocks sourceText) (extract_old_ranges patchDiff) [] []).map
        (fun p => p.2)

/-- `find_functions_for_patch(source_text, patch_diff)`: the emitted
snippet list (byte contents). -/
def find_functions_for_patch (funcNodes : List (Nat × Nat))
    (sourceText patchDiff : Str) : Option (List (List Nat)) :=
  (find_functions_for_patch_tagged funcNodes sourceText patchDiff).map
    (List.map Prod.snd)

/-! ## Metadata block parser (`extract_cve_meta`)

Models the parsing core of `src/util/cve_meta.py` on the file content
(the file read itself is I/O outside this core).  The Python dict is an
association list preserving Python's insertion-order semantics
(`dictSet` updates an existing key in place).  Regex notes:
* `_KEY_VALUE_RE = ^\s*\*\s*@([a-zA-Z0-9_.-]+)\s+(.*)$`: the key class
  has no whitespace, so the greedy key run followed by a mandatory
  whitespace run is deterministic; group 2 is the remainder after the
  maximal whitespace run (`.` cannot match a newline but split lines
  contain none).
* `^\s*\*\s*@([a-zA-Z0-9_.-]+)\b` (new-label test): the match succeeds
  iff the maximal label-character run after `@` contains a word
  character — the group can end right after the run's last word
  character, where the following character (a `.`/`-` of the run or the
  first character outside the class) is a non-word character, giving a
  boundary; if the run has no word character every candidate boundary
  has non-word characters on both sides and `\b` fails.
* `re.sub("^\s*\*\s?", "", line)` strips leading whitespace, one `*`,
  and at most one further whitespace character, when that pattern is
  present; otherwise the line is unchanged.
-/

/-- Characters of the label class `[a-zA-Z0-9_.-]`. -/
def isLabelCh (c : Char) : Bool := isWordCh c || c = '.' || c = '-'

/-- Python `str.strip()`. -/
def pyStrip (l : Str) : Str :=
  ((l.dropWhile isPySpace).reverse.dropWhile isPySpace).reverse

/-- Drop one trailing line terminator (two characters for `\r\n`),
turning a `splitlines(True)` line into its `splitlines()` form. -/
def dropEol (l : Str) : Str :=
  match l.reverse with
  | '\n' :: '\r' :: r => r.reverse
  | c :: r => if isLineBreakCh c then r.reverse else l
  | [] => l

/-- `text.splitlines()` (no keepends). -/
def splitPy (l : Str) : List Str := (splitKeep l).map dropEol

/-- `_KEY_VALUE_RE.match(line)`: the captured key and raw value. -/
def keyValueMatch (l : Str) : Option (Str × Str) :=
  match l.dropWhile isPySpace with
  | '*' :: r =>
    match r.dropWhile isPySpace with
    | '@' :: r2 =>
      if (r2.takeWhile isLabelCh).isEmpty then none
      else if ((r2.dropWhile isLabelCh).takeWhile isPySpace).isEmpty then none
      else some (r2.takeWhile isLabelCh, (r2.dropWhile isLabelCh).dropWhile isPySpace)
    | _ => none
  | _ => none

/-- `_PATCH_DIFF_START_RE` / `_PATCH_DESCRIPTION_START_RE`: matches
`^\s*\*\s*@<label>\s*\|\s*$` for the given literal label. -/
def pipeStartMatch (label : Str) (l : Str) : Bool :=
  match l.dropWhile isPySpace with
  | '*' :: r =>
    match r.dropWhile isPySpace with
    | '@' :: r2 =>
      if r2.take label.length = label then
        match (r2.drop label.length).dropWhile isPySpace with
        | '|' :: r3 => (r3.dropWhile isPySpace).isEmpty
        | _ => false
      else false
    | _ => false
  | _ => false

/-- `re.match("^\s*\*\s*@([a-zA-Z0-9_.-]+)\b", line)` as a test (see
the section comment for the boundary analysis). -/
def newLabelMatch (l : Str) : Bool :=
  match l.dropWhile isPySpace with
  | '*' :: r =>
    match r.dropWhile isPySpace with
    | '@' :: r2 => (r2.takeWhile isLabelCh).any isWordCh
    | _ => false
  | _ => false

/-- `line.strip().startswith("*/")`. -/
def startsWithCloseComment (l : Str) : Bool :=
  match pyStrip l with
  | '*' :: '/' :: _ => true
  | _ => false

/-- `re.sub("^\s*\*\s?", "", line)`. -/
def stripDecoration (l : Str) : Str :=
  match l.dropWhile isPySpace with
  | '*' :: r =>
    match r with
    | c :: r2 => if isPySpace c then r2 else r
    | [] => []
  | _ => l

/-- `line.replace("&#47;", "/")`: left-to-right, non-overlapping. -/
def unescapeSlash : Str → Str
  | '&' :: '#' :: '4' :: '7' :: ';' :: r => '/' :: unescapeSlash r
  | c :: r => c :: unescapeSlash r
  | [] => []

/-- Field name constants of the Metadata record. -/
def kName : Str := ("name").data

/-- Field name `patch_commit`. -/
def kPatchCommit : Str := ("patch_commit").data

/-- Field name `source_file`. -/
def kSourceFile : Str := ("source_file").data

/-- Field name `patch_diff`. -/
def kPatchDiff : Str := ("patch_diff").data

/-- Field name `patch_description`. -/
def kPatchDescription : Str := ("patch_description").data

/-- Label literal `patch-diff` of the start regex. -/
def labelPatchDiff : Str := ("patch-diff").data

/-- Label literal `patch-description` of the start regex. -/
def labelPatchDescription : Str := ("patch-description").data

/-- The `TARGET_KEYS` mapping from single-line labels to field names. -/
def targetKey (key : Str) : Option Str :=
  if key = ("name").data then some kName
  else if key = ("patch-commit").data then some kPatchCommit
  else if key = ("source-file").data then some kSourceFile
  else none

/-- Python dict assignment `d[k] = v`: update in place, preserving key
order; append if the key is new. -/
def dictSet (d : List (Str × Option Str)) (k : Str) (v : Option Str) :
    List (Str × Option Str) :=
  match d with
  | [] => [(k, v)]
  | (k2, v2) :: rest => if k2 = k then (k, v) :: rest else (k2, v2) :: dictSet rest k v

/-- Parser state of the line loop in `extract_cve_meta`: the two
collecting flags, the two multi-line buffers, and the `meta` dict. -/
structure MetaState where
  collectingDiff : Bool
  collectingDesc : Bool
  diffLines : List Str
  descLines : List Str
  meta : List (Str × Option Str)
deriving DecidableEq, Repr

/-- The non-collecting part of the loop body: start-of-collection
checks, then the single-line key/value match (empty stripped values are
stored as absent). -/
def normalStep (st : MetaState) (line : Str) : MetaState :=
  if pipeStartMatch labelPatchDiff line then
    { st with collectingDiff := true }
  else if pipeStartMatch labelPatchDescription line then
    { st with collectingDesc := true }
  else
    match keyValueMatch line with
    | some kv =>
      match targetKey kv.1 with
      | some field =>
        let v := if (pyStrip kv.2).isEmpty then none else some (pyStrip kv.2)
        { st with meta := dictSet st.meta field v }
      | none => st
    | none => st

/-- One iteration of the line loop; `none` models the `break` on a
closing-marker line while collecting.  In a collecting state a
new-label line clears both flags and falls through to `normalStep`
(the line is re-processed, not consumed); any other line is cleaned
(`stripDecoration`, then `&#47;` unescaping) and appended to the active
buffer. -/
def lineStep (st : MetaState) (line : Str) : Option MetaState :=
  if st.collectingDiff || st.collectingDesc then
    if startsWithCloseComment line then none
    else if newLabelMatch line then
      some (normalStep { st with collectingDiff := false, collectingDesc := false } line)
    else
      if st.collectingDiff then
        some { st with diffLines := st.diffLines ++ [unescapeSlash (stripDecoration line)] }
      else
        some { st with descLines := st.descLines ++ [unescapeSlash (stripDecoration line)] }
  else some (normalStep st line)

/-- The `for line in block` loop, with `break` ending the loop early. -/
def runLines (st : MetaState) : List Str → MetaState
  | [] => st
  | l :: rest =>
    match lineStep st l with
    | none => st
    | some st2 => runLines st2 rest

/-- The trailing-blank-trimming `while` loop applied to a multi-line
buffer before assignment. -/
def trimTrailingBlank (buf : List Str) : List Str :=
  (buf.reverse.dropWhile (fun l => (pyStrip l).isEmpty)).reverse

/-- `"\n".join(lines)`. -/
def joinLines : List Str → Str
  | [] => []
  | [l] => l
  | l :: rest => l ++ '\n' :: joinLines rest

/-- Final assignment of a multi-line field: only runs when the buffer is
non-empty; trims trailing blank lines; an empty trimmed buffer stores
the field as absent, never as an empty string. -/
def finalizeField (meta : List (Str × Option Str)) (key : Str) (buf : List Str) :
    List (Str × Option Str) :=
  if buf.isEmpty then meta
  else
    dictSet meta key
      (if (trimTrailingBlank buf).isEmpty then none
       else some (joinLines (trimTrailingBlank buf)))

/-- `s[i:i+len(pat)] == pat`. -/
def subAt (s pat : Str) (i : Nat) : Bool := decide ((s.drop i).take pat.length = pat)

/-- Python `s.find(pat, start)` for a non-empty pattern: position of the
leftmost occurrence at or after `start`, `none` for `-1`. -/
def findSubFrom (s pat : Str) (start : Nat) : Option Nat :=
  (List.range (s.length + 1)).find? (fun i => decide (start ≤ i) && subAt s pat i)

/-- The dict returned by the early `return` of `extract_cve_meta` when
no comment block is found: note it has four keys only. -/
def initMeta4 : List (Str × Option Str) :=
  [(kName, none), (kPatchCommit, none), (kSourceFile, none), (kPatchDiff, none)]

/-- The dict initialised at the start of the parsing path: five keys. -/
def initMeta5 : List (Str × Option Str) :=
  [(kName, none), (kPatchCommit, none), (kSourceFile, none), (kPatchDiff, none),
   (kPatchDescription, none)]

/-- `extract_cve_meta` from `src/util/cve_meta.py`, on the file content:
locate the first `/**` and the first `*/` after it (searching from
`start + 3`), parse the block's lines through the state machine, then
assign the two multi-line fields. -/
def extract_cve_meta (content : Str) : List (Str × Option Str) :=
  match findSubFrom content (("/**").data) 0 with
  | none => initMeta4
  | some start =>
    match findSubFrom content (("*/").data) (start + 3) with
    | none => initMeta4
    | some stop =>
      let st := runLines ⟨false, false, [], [], initMeta5⟩
        (splitPy ((content.drop start).take (stop - start)))
      finalizeField (finalizeField st.meta kPatchDiff st.diffLines)
        kPatchDescription st.descLines

/-- Modelled from the spec: the UTF-8 byte offset of the start of
1-based line `i`, per the contract's byte-offset language (4.3), used to
compare the code's character-based offset table against the spec. -/
def spec_byte_line_offset (src : Str) (i : Nat) : Nat :=
  utf8Len (((splitKeep src).take (i - 1)).flatten)

/-! ## Brace balance and macro scanner soundness (for C8) -/

/-- Running brace balance of a string: occurrences of `{` minus
occurrences of `}`. -/
def braceBal : Str → Int
  | [] => 0
  | c :: r =>
    ((if c = lbrace then 1 else 0) : Int) - (if c = rbrace then 1 else 0) + braceBal r

/-- A brace-balanced block: starts with `{`, ends with `}`, opening and
closing braces balance out overall, and every proper non-empty prefix
keeps a strictly positive balance (the depth first returns to 0 at the
final `}`). -/
def balancedBrace (seg : Str) : Prop :=
  seg.get? 0 = some lbrace ∧ seg.get? (seg.length - 1) = some rbrace ∧
  braceBal seg = 0 ∧ ∀ m, 1 ≤ m → m < seg.length → 1 ≤ braceBal (seg.take m)

/-! ## Loop invariants of `find_functions_for_patch` (C1, C2) -/

/-- Non-empty intersection of the half-open byte intervals
`[rs, re2)` and `[s, e)`. -/
def byteOverlap (rs re2 s e : Nat) : Prop := max rs s < min re2 e

theorem utf8Bytes_ne_nil (c : Char) : utf8Bytes c ≠ [] := by
  unfold utf8Bytes
  dsimp only
  split
  · simp
  · split
    · simp
    · split <;> simp

theorem length_le_utf8Len (s : Str) : s.length ≤ utf8Len s := by
  induction s with
  | nil => simp [utf8Len, utf8Encode]
  | cons c t ih =>
      have h := utf8Bytes_ne_nil c
      have h1 : 1 ≤ (utf8Bytes c).length := by
        cases hb : utf8Bytes c with
        | nil => exact absurd hb h
        | cons _ _ => simp
      have ih' : t.length ≤ (List.map utf8Bytes t).flatten.length := by
        simpa [utf8Len, utf8Encode] using ih
      simp only [utf8Len, utf8Encode, List.map_cons, List.flatten_cons,
        List.length_append, List.length_cons]
      omega

theorem utf8Len_append (a b : Str) : utf8Len (a ++ b) = utf8Len a + utf8Len b := by
  simp [utf8Len, utf8Encode]

theorem utf8Len_take_lt (s : Str) (a b : Nat) (hab : a < b) (hb : b ≤ s.length) :
    utf8Len (s.take a) < utf8Len (s.take b) := by
  obtain ⟨d, rfl⟩ : ∃ d, b = a + d := ⟨b - a, by omega⟩
  rw [List.take_add, utf8Len_append]
  have h2 : 1 ≤ ((s.drop a).take d).length := by
    rw [List.length_take, List.length_drop]
    omega
  have h3 := length_le_utf8Len ((s.drop a).take d)
  omega

theorem parseDigits_length {l : Str} {n : Nat} {rem : Str}
    (h : parseDigits l = some (n, rem)) : rem.length ≤ l.length := by
  unfold parseDigits at h
  split at h
  · exact absurd h (by simp)
  · simp only [Option.some.injEq, Prod.mk.injEq] at h
    obtain ⟨-, h2⟩ := h
    subst h2
    exact (List.dropWhile_suffix _).length_le

theorem parseOptCount_length {l : Str} {oc : Option Nat} {rem : Str}
    (h : parseOptCount l = some (oc, rem)) : rem.length ≤ l.length := by
  unfold parseOptCount at h
  split at h
  · rename_i r
    split at h
    · exact absurd h (by simp)
    · rename_i n rem2 hp
      simp only [Option.some.injEq, Prod.mk.injEq] at h
      obtain ⟨-, h2⟩ := h
      subst h2
      have := parseDigits_length hp
      simp only [List.length_cons]
      omega
  · simp only [Option.some.injEq, Prod.mk.injEq] at h
    obtain ⟨-, h2⟩ := h
    subst h2
    exact le_refl _

theorem matchHunkCore_length {r1 : Str} {os : Nat} {oc : Option Nat} {rem : Str}
    (h : matchHunkCore r1 = some (os, oc, rem)) : rem.length ≤ r1.length := by
  unfold matchHunkCore at h
  split at h
  case _ r3 heq1 =>
    have hw1 : r3.length + 1 ≤ r1.length := by
      have := (List.dropWhile_suffix (l := r1) isPySpace).length_le
      rw [heq1] at this
      simpa using this
    split at h
    · exact absurd h (by simp)
    case _ os2 r4 hp1 =>
      have hd1 := parseDigits_length hp1
      split at h
      · exact absurd h (by simp)
      case _ oc2 r5 hp2 =>
        have hd2 := parseOptCount_length hp2
        split at h
        · exact absurd h (by simp)
        case _ c r5t =>
          split at h
          · split at h
            case _ r7 heq2 =>
              have hw2 : r7.length + 1 ≤ r5t.length := by
                have := (List.dropWhile_suffix (l := r5t) isPySpace).length_le
                rw [heq2] at this
                simpa using this
              split at h
              · exact absurd h (by simp)
              case _ ns r8 hp3 =>
                have hd3 := parseDigits_length hp3
                split at h
                · exact absurd h (by simp)
                case _ nc r9 hp4 =>
                  have hd4 := parseOptCount_length hp4
                  split at h
                  case _ r11 heq3 =>
                    have hw3 : r11.length + 2 ≤ r9.length := by
                      have := (List.dropWhile_suffix (l := r9) isPySpace).length_le
                      rw [heq3] at this
                      simpa using this
                    simp only [Option.some.injEq, Prod.mk.injEq] at h
                    obtain ⟨-, -, h3⟩ := h
                    subst h3
                    simp only [List.length_cons] at *
                    omega
                  case _ =>
                    exact absurd h (by simp)
            case _ =>
              exact absurd h (by simp)
          · exact absurd h (by simp)
  case _ =>
    exact absurd h (by simp)

theorem matchHunkAt_length {l : Str} {os : Nat} {oc : Option Nat} {rem : Str}
    (h : matchHunkAt l = some (os, oc, rem)) : rem.length + 2 ≤ l.length := by
  unfold matchHunkAt at h
  split at h
  case _ r1 =>
    have := matchHunkCore_length h
    simp only [List.length_cons]
    omega
  case _ =>
    exact absurd h (by simp)

theorem hunkScanF_congr : ∀ (fuel fuel' : Nat) (l : Str) (pos : Nat),
    l.length < fuel → l.length < fuel' →
    hunkScanF fuel l pos = hunkScanF fuel' l pos := by
  intro fuel
  induction fuel with
  | zero => intro fuel' l pos h1 h2; omega
  | succ n ih =>
    intro fuel' l pos h1 h2
    match fuel', h2 with
    | m + 1, h2 =>
      simp only [hunkScanF]
      cases hm : matchHunkAt l with
      | some r =>
        obtain ⟨os, oc, rem⟩ := r
        have hlen := matchHunkAt_length hm
        simp only [hm]
        rw [ih m rem _ (by omega) (by omega)]
      | none =>
        cases l with
        | nil => simp [hm]
        | cons c t =>
          simp only [hm, List.length_cons] at *
          exact ih m t _ (by omega) (by omega)

theorem hunkScan_spec (l : Str) (pos : Nat) :
    hunkScan l pos =
      match matchHunkAt l with
      | some (os, oc, rem) =>
        ⟨pos, pos + (l.length - rem.length), os, oc⟩ ::
          hunkScan rem (pos + (l.length - rem.length))
      | none =>
        match l with
        | [] => []
        | _ :: t => hunkScan t (pos + 1) := by
  show hunkScanF (l.length + 1) l pos = _
  simp only [hunkScanF]
  cases hm : matchHunkAt l with
  | some r =>
    obtain ⟨os, oc, rem⟩ := r
    have hlen := matchHunkAt_length hm
    simp only [hm]
    rw [hunkScanF_congr l.length (rem.length + 1) rem _ (by omega) (by omega)]
    rfl
  | none =>
    cases l with
    | nil => simp [hm]
    | cons c t =>
      simp only [hm, List.length_cons]
      exact hunkScanF_congr (t.length + 1) (t.length + 1) t _ (by omega) (by omega)

theorem isLineBreakCh_cr : isLineBreakCh '\r' = true := by decide

theorem isLineBreakCh_lf : isLineBreakCh '\n' = true := by decide

theorem takeLine_append (l : Str) : (takeLine l).1 ++ (takeLine l).2 = l := by
  induction l with
  | nil => rfl
  | cons c r ih =>
    by_cases hb : isLineBreakCh c
    · by_cases hr : c = '\r'
      · cases r with
        | nil => simp [takeLine, hb, hr]
        | cons c2 r2 =>
          by_cases h2 : c2 = '\n'
          · simp [takeLine, hb, hr, h2, isLineBreakCh_cr]
          · simp [takeLine, hb, hr, h2, isLineBreakCh_cr]
      · simp [takeLine, hb, hr]
    · simp only [takeLine, hb]
      simpa using ih

theorem takeLine_fst_cons (c : Char) (r : Str) :
    ∃ t : Str, (takeLine (c :: r)).1 = c :: t := by
  by_cases hb : isLineBreakCh c
  · by_cases hr : c = '\r'
    · cases r with
      | nil => exact ⟨[], by simp [takeLine, hb, hr]⟩
      | cons c2 r2 =>
        by_cases h2 : c2 = '\n'
        · exact ⟨[c2], by simp [takeLine, hb, hr, h2, isLineBreakCh_cr]⟩
        · exact ⟨[], by simp [takeLine, hb, hr, h2, isLineBreakCh_cr]⟩
    · exact ⟨[], by simp [takeLine, hb, hr]⟩
  · exact ⟨(takeLine r).1, by simp [takeLine, hb]⟩

theorem takeLine_snd_lt (l : Str) (h : l ≠ []) : (takeLine l).2.length < l.length := by
  cases l with
  | nil => exact absurd rfl h
  | cons c r =>
    obtain ⟨t, ht⟩ := takeLine_fst_cons c r
    have ha := takeLine_append (c :: r)
    have hlen : (takeLine (c :: r)).1.length + (takeLine (c :: r)).2.length
        = (c :: r).length := by
      rw [← List.length_append, ha]
    rw [ht] at hlen
    simp only [List.length_cons] at hlen ⊢
    omega

theorem splitKeepF_congr : ∀ (fuel fuel' : Nat) (l : Str),
    l.length ≤ fuel → l.length ≤ fuel' →
    splitKeepF fuel l = splitKeepF fuel' l := by
  intro fuel
  induction fuel with
  | zero =>
    intro fuel' l h1 h2
    have hl : l = [] := by
      cases l with
      | nil => rfl
      | cons _ _ => simp at h1
    subst hl
    cases fuel' <;> rfl
  | succ n ih =>
    intro fuel' l h1 h2
    cases l with
    | nil => cases fuel' <;> rfl
    | cons c t =>
      match fuel', h2 with
      | m + 1, h2 =>
        simp only [splitKeepF]
        have hlt := takeLine_snd_lt (c :: t) (by simp)
        simp only [List.length_cons] at h1 h2 hlt
        rw [ih m (takeLine (c :: t)).2 (by omega) (by omega)]

theorem splitKeep_spec (l : Str) :
    splitKeep l = match l with
      | [] => []
      | _ :: _ => (takeLine l).1 :: splitKeep (takeLine l).2 := by
  cases l with
  | nil => rfl
  | cons c t =>
    show splitKeepF ((c :: t).length) (c :: t) = _
    have h0 : (c :: t).length = t.length + 1 := by simp
    rw [h0]
    simp only [splitKeepF]
    have hlt := takeLine_snd_lt (c :: t) (by simp)
    simp only [List.length_cons] at hlt
    rw [splitKeepF_congr t.length ((takeLine (c :: t)).2.length) (takeLine (c :: t)).2
      (by omega) (by omega)]
    rfl

theorem splitKeep_flatten_aux : ∀ (n : Nat) (l : Str), l.length ≤ n →
    (splitKeep l).flatten = l := by
  intro n
  induction n with
  | zero =>
    intro l h
    have hl : l = [] := by
      cases l with
      | nil => rfl
      | cons _ _ => simp at h
    subst hl
    rfl
  | succ n ih =>
    intro l h
    cases l with
    | nil => rfl
    | cons c t =>
      rw [splitKeep_spec]
      simp only [List.flatten_cons]
      have hlt := takeLine_snd_lt (c :: t) (by simp)
      simp only [List.length_cons] at h hlt
      rw [ih _ (by omega)]
      exact takeLine_append (c :: t)

theorem splitKeep_flatten (l : Str) : (splitKeep l).flatten = l :=
  splitKeep_flatten_aux l.length l (le_refl _)

theorem splitKeep_mem_ne_nil_aux : ∀ (n : Nat) (l : Str), l.length ≤ n →
    ∀ x ∈ splitKeep l, x ≠ [] := by
  intro n
  induction n with
  | zero =>
    intro l h x hx
    have hl : l = [] := by
      cases l with
      | nil => rfl
      | cons _ _ => simp at h
    subst hl
    simp [splitKeep, splitKeepF] at hx
  | succ n ih =>
    intro l h x hx
    cases l with
    | nil => simp [splitKeep, splitKeepF] at hx
    | cons c t =>
      rw [splitKeep_spec] at hx
      simp only [List.mem_cons] at hx
      cases hx with
      | inl h1 =>
        subst h1
        obtain ⟨tt, htt⟩ := takeLine_fst_cons c t
        simp [htt]
      | inr h2 =>
        have hlt := takeLine_snd_lt (c :: t) (by simp)
        simp only [List.length_cons] at h hlt
        exact ih _ (by omega) x h2

theorem splitKeep_mem_ne_nil (l : Str) (x : Str) (hx : x ∈ splitKeep l) : x ≠ [] :=
  splitKeep_mem_ne_nil_aux l.length l (le_refl _) x hx

theorem matchMacroHead_length {l rest : Str} (h : matchMacroHead l = some rest) :
    rest.length + 2 ≤ l.length := by
  unfold matchMacroHead at h
  split at h
  · exact absurd h (by simp)
  case _ c r heq1 =>
    have hw1 : r.length + 1 ≤ l.length := by
      have := (List.dropWhile_suffix (l := l) isPySpace).length_le
      rw [heq1] at this
      simpa using this
    split at h
    · split at h
      case _ rest2 heq2 =>
        have hw2 : rest2.length + 1 ≤ r.length := by
          have h1 := (List.dropWhile_suffix (l := r) isMacroCh).length_le
          have h2 := (List.dropWhile_suffix
            (l := r.dropWhile isMacroCh) isPySpace).length_le
          rw [heq2] at h2
          simp only [List.length_cons] at h2
          omega
        simp only [Option.some.injEq] at h
        subst h
        omega
      case _ =>
        exact absurd h (by simp)
    · exact absurd h (by simp)

set_option maxHeartbeats 1000000 in
theorem macroMatchesF_congr : ∀ (fuel fuel' : Nat) (l : Str) (pos : Nat) (atLS : Bool),
    l.length < fuel → l.length < fuel' →
    macroMatchesF fuel l pos atLS = macroMatchesF fuel' l pos atLS := by
  intro fuel
  induction fuel with
  | zero => intro fuel' l pos atLS h1 h2; omega
  | succ n ih =>
    intro fuel' l pos atLS h1 h2
    match fuel', h2 with
    | m + 1, h2 =>
      cases l with
      | nil => rfl
      | cons c t =>
        simp only [macroMatchesF]
        simp only [List.length_cons] at h1 h2
        cases atLS with
        | false =>
          simp only [Bool.false_eq_true, if_false]
          exact ih m t (pos + 1) (c == '\n') (by omega) (by omega)
        | true =>
          simp only [if_true]
          cases hm : matchMacroHead (c :: t) with
          | some rest =>
            have hlen := matchMacroHead_length hm
            simp only [List.length_cons] at hlen
            simp only [hm, Option.elim]
            rw [ih m rest _ false (by omega) (by omega)]
          | none =>
            simp only [hm, Option.elim]
            exact ih m t (pos + 1) (c == '\n') (by omega) (by omega)

/-! ## Support lemmas: match remainders are suffixes -/

theorem parseDigits_suffix {l : Str} {n : Nat} {rem : Str}
    (h : parseDigits l = some (n, rem)) : rem <:+ l := by
  unfold parseDigits at h
  split at h
  · exact absurd h (by simp)
  · simp only [Option.some.injEq, Prod.mk.injEq] at h
    obtain ⟨-, h2⟩ := h
    subst h2
    exact List.dropWhile_suffix _

theorem parseOptCount_suffix {l : Str} {oc : Option Nat} {rem : Str}
    (h : parseOptCount l = some (oc, rem)) : rem <:+ l := by
  unfold parseOptCount at h
  split at h
  · rename_i r
    split at h
    · exact absurd h (by simp)
    · rename_i n rem2 hp
      simp only [Option.some.injEq, Prod.mk.injEq] at h
      obtain ⟨-, h2⟩ := h
      subst h2
      exact (parseDigits_suffix hp).trans (List.suffix_cons _ _)
  · simp only [Option.some.injEq, Prod.mk.injEq] at h
    obtain ⟨-, h2⟩ := h
    subst h2
    exact List.suffix_refl _

theorem matchHunkCore_suffix {r1 : Str} {os : Nat} {oc : Option Nat} {rem : Str}
    (h : matchHunkCore r1 = some (os, oc, rem)) : rem <:+ r1 := by
  unfold matchHunkCore at h
  split at h
  case _ r3 heq1 =>
    have hs1 : r3 <:+ r1 := by
      have h0 : r3 <:+ r1.dropWhile isPySpace := by
        rw [heq1]
        exact List.suffix_cons _ _
      exact h0.trans (List.dropWhile_suffix _)
    split at h
    · exact absurd h (by simp)
    case _ os2 r4 hp1 =>
      have hs2 : r4 <:+ r3 := parseDigits_suffix hp1
      split at h
      · exact absurd h (by simp)
      case _ oc2 r5 hp2 =>
        have hs3 : r5 <:+ r4 := parseOptCount_suffix hp2
        split at h
        · exact absurd h (by simp)
        case _ c r5t =>
          have hs4 : r5t <:+ c :: r5t := List.suffix_cons _ _
          split at h
          · split at h
            case _ r7 heq2 =>
              have hs5 : r7 <:+ r5t := by
                have h0 : r7 <:+ r5t.dropWhile isPySpace := by
                  rw [heq2]
                  exact List.suffix_cons _ _
                exact h0.trans (List.dropWhile_suffix _)
              split at h
              · exact absurd h (by simp)
              case _ ns r8 hp3 =>
                have hs6 : r8 <:+ r7 := parseDigits_suffix hp3
                split at h
                · exact absurd h (by simp)
                case _ nc r9 hp4 =>
                  have hs7 : r9 <:+ r8 := parseOptCount_suffix hp4
                  split at h
                  case _ r11 heq3 =>
                    have hs8 : r11 <:+ r9 := by
                      have h0 : r11 <:+ r9.dropWhile isPySpace := by
                        rw [heq3]
                        exact (List.suffix_cons _ _).trans (List.suffix_cons _ _)
                      exact h0.trans (List.dropWhile_suffix _)
                    simp only [Option.some.injEq, Prod.mk.injEq] at h
                    obtain ⟨-, -, h3⟩ := h
                    subst h3
                    exact hs8.trans (hs7.trans (hs6.trans (hs5.trans
                      (hs4.trans (hs3.trans (hs2.trans hs1))))))
                  case _ =>
                    exact absurd h (by simp)
            case _ =>
              exact absurd h (by simp)
          · exact absurd h (by simp)
  case _ =>
    exact absurd h (by simp)

theorem matchHunkAt_suffix {l : Str} {os : Nat} {oc : Option Nat} {rem : Str}
    (h : matchHunkAt l = some (os, oc, rem)) : rem <:+ l := by
  unfold matchHunkAt at h
  split at h
  case _ r1 =>
    exact (matchHunkCore_suffix h).trans
      ((List.suffix_cons _ _).trans (List.suffix_cons _ _))
  case _ =>
    exact absurd h (by simp)

theorem suffix_eq_drop {α : Type} {rem l : List α} (h : rem <:+ l) :
    rem = l.drop (l.length - rem.length) := by
  obtain ⟨t, rfl⟩ := h
  simp [List.drop_left']

theorem matchHunkAt_drop {l : Str} {os : Nat} {oc : Option Nat} {rem : Str}
    (h : matchHunkAt l = some (os, oc, rem)) :
    rem = l.drop (l.length - rem.length) :=
  suffix_eq_drop (matchHunkAt_suffix h)

/-! ## Scan lemmas for `hunkScan` (soundness, ordering, completeness) -/

theorem hunkScanF_sound : ∀ (fuel : Nat) (l : Str) (pos : Nat),
    l.length < fuel → ∀ m ∈ hunkScanF fuel l pos,
    pos ≤ m.startPos ∧ m.startPos < m.endPos ∧ m.endPos ≤ pos + l.length ∧
    matchHunkAt (l.drop (m.startPos - pos))
      = some (m.oldStart, m.oldCount, l.drop (m.endPos - pos)) := by
  intro fuel
  induction fuel with
  | zero => intro l pos h m hm; omega
  | succ n ih =>
    intro l pos h m hm
    simp only [hunkScanF] at hm
    revert hm
    cases hma : matchHunkAt l with
    | some r =>
      obtain ⟨os, oc, rem⟩ := r
      have hlen := matchHunkAt_length hma
      have hdrop := matchHunkAt_drop hma
      intro hm
      simp only [List.mem_cons] at hm
      set k := l.length - rem.length with hkdef
      cases hm with
      | inl h1 =>
        subst h1
        refine ⟨le_refl _, by show pos < pos + k; omega,
          by show pos + k ≤ pos + l.length; omega, ?_⟩
        show matchHunkAt (l.drop (pos - pos))
          = some (os, oc, l.drop (pos + k - pos))
        rw [Nat.sub_self, List.drop_zero, Nat.add_sub_cancel_left, hma, hkdef,
          ← hdrop]
      | inr h2 =>
        have hr := ih rem (pos + k) (by omega) m h2
        obtain ⟨ha, hb, hc, hd⟩ := hr
        rw [hdrop] at hd
        rw [List.drop_drop, List.drop_drop] at hd
        have e1 : k + (m.startPos - (pos + k)) = m.startPos - pos := by omega
        have e2 : k + (m.endPos - (pos + k)) = m.endPos - pos := by omega
        rw [e1, e2] at hd
        exact ⟨by omega, hb, by omega, hd⟩
    | none =>
      cases l with
      | nil => intro hm; simp at hm
      | cons c t =>
        intro hm
        have hr := ih t (pos + 1)
          (by simp only [List.length_cons] at h; omega) m hm
        obtain ⟨ha, hb, hc, hd⟩ := hr
        refine ⟨by omega, hb, by simp only [List.length_cons]; omega, ?_⟩
        have e1 : m.startPos - pos = (m.startPos - (pos + 1)) + 1 := by omega
        have e2 : m.endPos - pos = (m.endPos - (pos + 1)) + 1 := by omega
        rw [e1, e2]
        simpa [List.drop_succ_cons] using hd

theorem hunkScanF_chain : ∀ (fuel : Nat) (l : Str) (pos : Nat),
    l.length < fuel →
    List.Chain' (fun a b : HunkMatch => a.endPos ≤ b.startPos)
      (hunkScanF fuel l pos) := by
  intro fuel
  induction fuel with
  | zero => intro l pos h; omega
  | succ n ih =>
    intro l pos h
    simp only [hunkScanF]
    cases hma : matchHunkAt l with
    | some r =>
      obtain ⟨os, oc, rem⟩ := r
      have hlen := matchHunkAt_length hma
      apply List.Chain'.cons'
      · exact ih rem _ (by omega)
      · intro y hy
        have hy2 := List.mem_of_mem_head? hy
        have := hunkScanF_sound n rem (pos + (l.length - rem.length))
          (by omega) y hy2
        exact this.1
    | none =>
      cases l with
      | nil => exact List.chain'_nil
      | cons c t =>
        exact ih t (pos + 1) (by simp only [List.length_cons] at h; omega)

theorem hunkScanF_complete : ∀ (fuel : Nat) (l : Str) (pos : Nat),
    l.length < fuel → ∀ j, (matchHunkAt (l.drop j)).isSome →
    ∃ m ∈ hunkScanF fuel l pos, m.startPos ≤ pos + j ∧ pos + j < m.endPos := by
  intro fuel
  induction fuel with
  | zero => intro l pos h; omega
  | succ n ih =>
    intro l pos h j hj
    simp only [hunkScanF]
    cases hma : matchHunkAt l with
    | some r =>
      obtain ⟨os, oc, rem⟩ := r
      have hlen := matchHunkAt_length hma
      have hdrop := matchHunkAt_drop hma
      set k := l.length - rem.length with hkdef
      by_cases hjk : j < k
      · refine ⟨⟨pos, pos + k, os, oc⟩, by simp, by show pos ≤ pos + j; omega, ?_⟩
        show pos + j < pos + k
        omega
      · have hrw : l.drop j = rem.drop (j - k) := by
          rw [hdrop, List.drop_drop]
          congr 1
          omega
        rw [hrw] at hj
        obtain ⟨m, hm, h1, h2⟩ := ih rem (pos + k) (by omega) (j - k) hj
        exact ⟨m, List.mem_cons_of_mem _ hm, by omega, by omega⟩
    | none =>
      cases l with
      | nil =>
        rw [List.drop_nil, hma] at hj
        simp at hj
      | cons c t =>
        cases j with
        | zero =>
          rw [List.drop_zero] at hj
          rw [hma] at hj
          simp at hj
        | succ j2 =>
          obtain ⟨m, hm, h1, h2⟩ := ih t (pos + 1)
            (by simp only [List.length_cons] at h; omega) j2
            (by simpa [List.drop_succ_cons] using hj)
          exact ⟨m, hm, by omega, by omega⟩

/-! ## Claim theorems: hunk range parsing (C5, C10) -/

/-- C5: `extract_old_ranges` yields one `(old_start, old_end)` pair per
hunk-header match in document order, with `old_count` defaulting to 1
when omitted, `old_end = old_start + old_count - 1` when
`old_count > 0` and `old_end = old_start - 1` when `old_count = 0`; the
spec's three examples hold, and an empty or malformed diff yields the
empty sequence. -/
theorem hunk_ranges_per_header :
    extract_old_ranges (("@@ -10,3 +20,5 @@").data) = [(10, 12)] ∧
    extract_old_ranges (("@@ -5 +5 @@").data) = [(5, 5)] ∧
    extract_old_ranges (("@@ -8,0 +9,2 @@").data) = [(8, 7)] ∧
    extract_old_ranges [] = [] ∧
    extract_old_ranges (("not a diff @@ +1 -1 @@").data) = [] ∧
    (∀ d : Str, extract_old_ranges d = (hunkScan d 0).map
      (fun m => ((m.oldStart : Int), oldEndOf m.oldStart m.oldCount))) ∧
    (∀ os : Nat, oldEndOf os none = (os : Int)) ∧
    (∀ os c : Nat, 0 < c → oldEndOf os (some c) = (os : Int) + c - 1) ∧
    (∀ os : Nat, oldEndOf os (some 0) = (os : Int) - 1) := by
  refine ⟨by decide, by decide, by decide, by decide, by decide, ?_, ?_, ?_, ?_⟩
  · intro d
    cases d with
    | nil => rfl
    | cons c t => rfl
  · intro os
    simp [oldEndOf]
  · intro os c hc
    simp [oldEndOf, hc]
  · intro os
    simp [oldEndOf]

/-- C5 witness: the universal parts of `hunk_ranges_per_header`
evaluated at a concrete diff and concrete counts. -/
theorem hunk_ranges_per_header_witness :
    extract_old_ranges (("@@ -3,2 +3,2 @@").data) =
      (hunkScan (("@@ -3,2 +3,2 @@").data) 0).map
        (fun m => ((m.oldStart : Int), oldEndOf m.oldStart m.oldCount)) ∧
    oldEndOf 5 none = (5 : Int) ∧ oldEndOf 10 (some 3) = (12 : Int) ∧
    oldEndOf 8 (some 0) = (7 : Int) := by
  refine ⟨hunk_ranges_per_header.2.2.2.2.2.1 _,
    hunk_ranges_per_header.2.2.2.2.2.2.1 5,
    hunk_ranges_per_header.2.2.2.2.2.2.2.1 10 3 (by decide), ?_⟩
  have := hunk_ranges_per_header.2.2.2.2.2.2.2.2 8
  simpa using this

/-- C10 counterexample: in `"@@ -1 +1 @@ -2 +2 @@"` the hunk pattern
also occurs at position 9 (`"@@ -2 +2 @@"`), embedded in the first match's
span, but `finditer`'s non-overlapping scan does not contribute its
range `(2, 2)`: the output is `[(1, 1)]` only. -/
theorem hunk_pattern_overlap_not_contributed :
    extract_old_ranges (("@@ -1 +1 @@ -2 +2 @@").data) = [(1, 1)] ∧
    matchHunkAt ((("@@ -1 +1 @@ -2 +2 @@").data).drop 9) = some (2, none, []) ∧
    ((2 : Int), (2 : Int)) ∉ extract_old_ranges (("@@ -1 +1 @@ -2 +2 @@").data) := by
  refine ⟨by decide, by decide, by decide⟩

/-- C10 (amended): the hunk pattern is recognised at any position of
the diff text, not only at line starts: every `hunkScan` match is a real
pattern occurrence at its (arbitrary) position, matches are emitted in
document order without overlap, the output ranges are exactly the
matches' ranges in that order, and every occurrence of the pattern in
the text either begins a recognised match or lies strictly inside the
span of one (the non-overlapping `finditer` scan). -/
theorem hunk_pattern_any_position (d : Str) :
    extract_old_ranges d = (hunkScan d 0).map
      (fun m => ((m.oldStart : Int), oldEndOf m.oldStart m.oldCount)) ∧
    (∀ m ∈ hunkScan d 0,
      matchHunkAt (d.drop m.startPos) = some (m.oldStart, m.oldCount, d.drop m.endPos) ∧
      m.startPos < m.endPos ∧ m.endPos ≤ d.length) ∧
    List.Chain' (fun a b : HunkMatch => a.endPos ≤ b.startPos) (hunkScan d 0) ∧
    (∀ p : Nat, (matchHunkAt (d.drop p)).isSome →
      ∃ m ∈ hunkScan d 0, m.startPos ≤ p ∧ p < m.endPos) := by
  refine ⟨?_, ?_, ?_, ?_⟩
  · cases d with
    | nil => rfl
    | cons c t => rfl
  · intro m hm
    have h := hunkScanF_sound (d.length + 1) d 0 (by omega) m hm
    obtain ⟨-, hb, hc, hd⟩ := h
    rw [Nat.sub_zero, Nat.sub_zero] at hd
    exact ⟨hd, hb, by omega⟩
  · exact hunkScanF_chain (d.length + 1) d 0 (by omega)
  · intro p hp
    obtain ⟨m, hm, h1, h2⟩ := hunkScanF_complete (d.length + 1) d 0 (by omega) p hp
    exact ⟨m, hm, by omega, by omega⟩

/-- C10 witness: the completeness part applied to a diff whose only
hunk header sits mid-line, at position 4. -/
theorem hunk_pattern_any_position_witness :
    ∃ m ∈ hunkScan (("ctx @@ -4,2 +4,3 @@").data) 0, m.startPos ≤ 4 ∧ 4 < m.endPos :=
  (hunk_pattern_any_position (("ctx @@ -4,2 +4,3 @@").data)).2.2.2 4 (by decide)

/-! ## Support lemmas for `range_to_bytes` -/

theorem offsetsFrom_length : ∀ (lines : List Str) (pos : Nat),
    (offsetsFrom pos lines).length = lines.length := by
  intro lines
  induction lines with
  | nil => intro pos; rfl
  | cons ln rest ih =>
    intro pos
    simp only [offsetsFrom, List.length_cons, ih]

theorem offsetsFrom_get_bound : ∀ (lines : List Str) (pos i v : Nat),
    (∀ x ∈ lines, x ≠ []) → (offsetsFrom pos lines).get? i = some v →
    v + 1 ≤ pos + lines.flatten.length := by
  intro lines
  induction lines with
  | nil => intro pos i v hne hv; simp [offsetsFrom] at hv
  | cons ln rest ih =>
    intro pos i v hne hv
    cases i with
    | zero =>
      simp only [offsetsFrom, List.get?] at hv
      have h1 : ln ≠ [] := hne ln (by simp)
      have h2 : 1 ≤ ln.length := by
        cases hl : ln with
        | nil => exact absurd hl h1
        | cons _ _ => simp
      simp only [Option.some.injEq] at hv
      subst hv
      simp only [List.flatten_cons, List.length_append]
      omega
    | succ i2 =>
      simp only [offsetsFrom, List.get?] at hv
      have := ih (pos + ln.length) i2 v (fun x hx => hne x (by simp [hx])) hv
      simp only [List.flatten_cons, List.length_append]
      omega

theorem pyGetNat_nonneg (l : List Nat) (i : Int) (h : 0 ≤ i) :
    pyGetNat l i = l.get? i.toNat := by
  have hpy : pyIdx l.length i = i := by
    unfold pyIdx
    rw [if_neg (by omega)]
  unfold pyGetNat
  rw [hpy, if_pos h]

theorem pyGetLine_nonneg (l : List Str) (i : Int) (h : 0 ≤ i) :
    pyGetLine l i = l.get? i.toNat := by
  have hpy : pyIdx l.length i = i := by
    unfold pyIdx
    rw [if_neg (by omega)]
  unfold pyGetLine
  rw [hpy, if_pos h]

/-- C6: for a pure-insertion hunk (`old_end < old_start`),
`range_to_bytes` returns a one-byte anchor range at the offset of line
`max(1, old_start)` — length exactly 1, except that a start clamped at
the end of the buffer gives length 0; a line number past the table
clamps the start to the buffer length. -/
theorem insertion_anchor_range (src : Str) (os oe : Int) (hio : oe < os) :
    ∃ sb eb,
      range_to_bytes (offsetsFrom 0 (splitKeep src)) (splitKeep src)
        (utf8Len src) os oe = some (sb, eb) ∧
      sb ≤ utf8Len src ∧
      (sb < utf8Len src → eb = sb + 1) ∧
      (sb = utf8Len src → eb = sb) ∧
      (∀ v, (offsetsFrom 0 (splitKeep src)).get? (max 1 os - 1).toNat = some v →
        sb = v) ∧
      (((offsetsFrom 0 (splitKeep src)).length : Int) ≤ max 1 os - 1 →
        sb = utf8Len src) := by
  have hlen : src.length ≤ utf8Len src := length_le_utf8Len src
  have hm1 : (1 : Int) ≤ max 1 os := le_max_left _ _
  have hge : (0 : Int) ≤ max 1 os - 1 := by omega
  unfold range_to_bytes
  rw [if_pos hio]
  by_cases hg : max 1 os - 1 < ((offsetsFrom 0 (splitKeep src)).length : Int)
  · rw [if_pos hg, pyGetNat_nonneg _ _ hge]
    have hlt : (max 1 os - 1).toNat < (offsetsFrom 0 (splitKeep src)).length := by
      omega
    obtain ⟨v, hv⟩ : ∃ v, (offsetsFrom 0 (splitKeep src)).get?
        (max 1 os - 1).toNat = some v := by
      rw [List.get?_eq_get hlt]
      exact ⟨_, rfl⟩
    have hvlt : v < utf8Len src := by
      have hb := offsetsFrom_get_bound (splitKeep src) 0 (max 1 os - 1).toNat v
        (fun x hx => splitKeep_mem_ne_nil src x hx) hv
      rw [splitKeep_flatten] at hb
      omega
    rw [hv]
    refine ⟨v, v + 1, ?_, by omega, fun _ => rfl, ?_, ?_, ?_⟩
    · simp only [Option.some_bind, Option.some.injEq, Prod.mk.injEq]
      exact ⟨trivial, by omega⟩
    · intro hx
      omega
    · intro v2 hv2
      exact Option.some.inj hv2
    · intro hx
      omega
  · rw [if_neg hg]
    refine ⟨utf8Len src, utf8Len src, ?_, le_refl _, ?_, fun _ => rfl, ?_, fun _ => rfl⟩
    · simp only [Option.some_bind, Option.some.injEq, Prod.mk.injEq]
      exact ⟨trivial, by omega⟩
    · intro hx
      omega
    · intro v hv
      have hn : (offsetsFrom 0 (splitKeep src)).length ≤ (max 1 os - 1).toNat := by
        omega
      rw [List.get?_eq_none.mpr hn] at hv
      exact absurd hv (by simp)

/-- C6 witness: the insertion case at a concrete source and hunk. -/
theorem insertion_anchor_range_witness :
    ∃ sb eb,
      range_to_bytes (offsetsFrom 0 (splitKeep (("ab\ncd\n").data)))
        (splitKeep (("ab\ncd\n").data)) (utf8Len (("ab\ncd\n").data)) 2 1
        = some (sb, eb) ∧
      sb ≤ utf8Len (("ab\ncd\n").data) ∧
      (sb < utf8Len (("ab\ncd\n").data) → eb = sb + 1) ∧
      (sb = utf8Len (("ab\ncd\n").data) → eb = sb) ∧
      (∀ v, (offsetsFrom 0 (splitKeep (("ab\ncd\n").data))).get?
          (max 1 (2 : Int) - 1).toNat = some v → sb = v) ∧
      (((offsetsFrom 0 (splitKeep (("ab\ncd\n").data))).length : Int)
          ≤ max 1 (2 : Int) - 1 → sb = utf8Len (("ab\ncd\n").data)) :=
  insertion_anchor_range (("ab\ncd\n").data) 2 1 (by decide)

/-- C7 at its failing input: for the source `"é\nx\n"` (line 1 holds a
two-byte character) and the hunk `(2, 2)`, the code returns the
character-based range `(2, 4)`, while the byte offset of line 2 is 3 and
the byte end of line 2 is the full buffer length 5: `_build_line_offsets`
accumulates `len(ln)` character counts, not encoded byte lengths. -/
theorem line_offsets_are_char_offsets :
    range_to_bytes (offsetsFrom 0 (splitKeep (("\xe9\nx\n").data)))
      (splitKeep (("\xe9\nx\n").data)) (utf8Len (("\xe9\nx\n").data)) 2 2
      = some (2, 4) ∧
    spec_byte_line_offset (("\xe9\nx\n").data) 2 = 3 ∧
    utf8Len (("\xe9\nx\n").data) = 5 ∧
    offsetsFrom 0 (splitKeep (("\xe9\nx\n").data)) = [0, 2] := by
  refine ⟨by decide, by decide, by decide, by decide⟩

/-! ## Support lemmas for the metadata parser -/

theorem dictSet_lookup_self : ∀ (d : List (Str × Option Str)) (k : Str) (v : Option Str),
    (dictSet d k v).lookup k = some v := by
  intro d
  induction d with
  | nil =>
    intro k v
    simp [dictSet, List.lookup]
  | cons p rest ih =>
    intro k v
    obtain ⟨k2, v2⟩ := p
    unfold dictSet
    by_cases h : k2 = k
    · rw [if_pos h]
      simp [List.lookup]
    · rw [if_neg h]
      have hbe : (k == k2) = false := by
        rw [beq_eq_false_iff_ne]
        exact fun he => h he.symm
      simp [List.lookup, hbe, ih]

theorem dictSet_lookup_ne : ∀ (d : List (Str × Option Str)) (k k2 : Str) (v : Option Str),
    k2 ≠ k → (dictSet d k v).lookup k2 = d.lookup k2 := by
  intro d
  induction d with
  | nil =>
    intro k k2 v hne
    have hbe : (k2 == k) = false := beq_eq_false_iff_ne.mpr hne
    simp [dictSet, List.lookup, hbe]
  | cons p rest ih =>
    intro k k2 v hne
    obtain ⟨k1, v1⟩ := p
    unfold dictSet
    by_cases h : k1 = k
    · rw [if_pos h]
      have hb1 : (k2 == k) = false := beq_eq_false_iff_ne.mpr hne
      have hb2 : (k2 == k1) = false := beq_eq_false_iff_ne.mpr (by rw [h]; exact hne)
      simp [List.lookup, hb1, hb2]
    · rw [if_neg h]
      by_cases h2 : k2 = k1
      · have hb : (k2 == k1) = true := beq_iff_eq.mpr h2
        simp [List.lookup, hb]
      · have hb : (k2 == k1) = false := beq_eq_false_iff_ne.mpr h2
        simp [List.lookup, hb, ih _ _ _ hne]

theorem targetKey_cases {key f : Str} (h : targetKey key = some f) :
    f = kName ∨ f = kPatchCommit ∨ f = kSourceFile := by
  unfold targetKey at h
  split at h
  · exact Or.inl (Option.some.inj h).symm
  · split at h
    · exact Or.inr (Or.inl (Option.some.inj h).symm)
    · split at h
      · exact Or.inr (Or.inr (Option.some.inj h).symm)
      · exact absurd h (by simp)

theorem normalStep_diffLines (st : MetaState) (line : Str) :
    (normalStep st line).diffLines = st.diffLines ∧
    (normalStep st line).descLines = st.descLines := by
  unfold normalStep
  split
  · exact ⟨rfl, rfl⟩
  · split
    · exact ⟨rfl, rfl⟩
    · split
      · split
        · exact ⟨rfl, rfl⟩
        · exact ⟨rfl, rfl⟩
      · exact ⟨rfl, rfl⟩

theorem normalStep_lookup (st : MetaState) (line : Str) (k2 : Str)
    (h1 : k2 ≠ kName) (h2 : k2 ≠ kPatchCommit) (h3 : k2 ≠ kSourceFile) :
    (normalStep st line).meta.lookup k2 = st.meta.lookup k2 := by
  unfold normalStep
  split
  · rfl
  · split
    · rfl
    · split
      case _ kv heq =>
        split
        case _ f hf =>
          have hc := targetKey_cases hf
          simp only
          rcases hc with hc | hc | hc
          · exact dictSet_lookup_ne _ _ _ _ (hc ▸ h1)
          · exact dictSet_lookup_ne _ _ _ _ (hc ▸ h2)
          · exact dictSet_lookup_ne _ _ _ _ (hc ▸ h3)
        case _ => rfl
      case _ => rfl

theorem lineStep_lookup {st st2 : MetaState} {line : Str} (k2 : Str)
    (h1 : k2 ≠ kName) (h2 : k2 ≠ kPatchCommit) (h3 : k2 ≠ kSourceFile)
    (h : lineStep st line = some st2) :
    st2.meta.lookup k2 = st.meta.lookup k2 := by
  unfold lineStep at h
  split at h
  · split at h
    · exact absurd h (by simp)
    · split at h
      · simp only [Option.some.injEq] at h
        subst h
        exact normalStep_lookup _ _ _ h1 h2 h3
      · split at h
        · simp only [Option.some.injEq] at h
          subst h
          rfl
        · simp only [Option.some.injEq] at h
          subst h
          rfl
  · simp only [Option.some.injEq] at h
    subst h
    exact normalStep_lookup _ _ _ h1 h2 h3

theorem runLines_lookup (k2 : Str)
    (h1 : k2 ≠ kName) (h2 : k2 ≠ kPatchCommit) (h3 : k2 ≠ kSourceFile) :
    ∀ (lines : List Str) (st : MetaState),
    (runLines st lines).meta.lookup k2 = st.meta.lookup k2 := by
  intro lines
  induction lines with
  | nil => intro st; rfl
  | cons l rest ih =>
    intro st
    unfold runLines
    cases hls : lineStep st l with
    | none => rfl
    | some st2 =>
      rw [ih st2, lineStep_lookup k2 h1 h2 h3 hls]

theorem dropWhile_head_not {α : Type} (p : α → Bool) :
    ∀ (l : List α) (y : α) (ys : List α), l.dropWhile p = y :: ys → p y = false := by
  intro l
  induction l with
  | nil => intro y ys h; simp [List.dropWhile] at h
  | cons a t ih =>
    intro y ys h
    rw [List.dropWhile_cons] at h
    split at h
    · exact ih y ys h
    · rename_i hp
      simp only [List.cons.injEq] at h
      obtain ⟨h1, -⟩ := h
      subst h1
      simpa using hp

theorem trimTrailingBlank_spec (buf : List Str) :
    ∃ k, k ≤ buf.length ∧
      trimTrailingBlank buf = buf.take k ∧
      (∀ x ∈ buf.drop k, (pyStrip x).isEmpty = true) ∧
      (trimTrailingBlank buf ≠ [] →
        ∃ x, (trimTrailingBlank buf).getLast? = some x ∧ (pyStrip x).isEmpty = false) := by
  obtain ⟨tw, dw, hsplit, htrim, htw, hdw⟩ :
      ∃ tw dw, tw ++ dw = buf.reverse ∧ trimTrailingBlank buf = dw.reverse ∧
        (∀ x ∈ tw, (pyStrip x).isEmpty = true) ∧
        (∀ d0 dt, dw = d0 :: dt → (pyStrip d0).isEmpty = false) := by
    refine ⟨buf.reverse.takeWhile (fun l => (pyStrip l).isEmpty),
      buf.reverse.dropWhile (fun l => (pyStrip l).isEmpty),
      List.takeWhile_append_dropWhile _ _, rfl, ?_, ?_⟩
    · intro x hx
      simpa using List.mem_takeWhile_imp hx
    · intro d0 dt h
      exact dropWhile_head_not (fun l => (pyStrip l).isEmpty) buf.reverse d0 dt h
  have hbuf : buf = dw.reverse ++ tw.reverse := by
    have h2 : buf.reverse.reverse = (tw ++ dw).reverse := by rw [hsplit]
    rw [List.reverse_reverse] at h2
    rw [h2, List.reverse_append]
  refine ⟨dw.reverse.length, ?_, ?_, ?_, ?_⟩
  · conv_rhs => rw [hbuf]
    simp
  · rw [htrim]
    conv_rhs => rw [hbuf]
    rw [List.take_left]
  · intro x hx
    rw [hbuf, List.drop_left] at hx
    rw [List.mem_reverse] at hx
    exact htw x hx
  · intro hne
    rw [htrim] at hne ⊢
    rw [List.getLast?_reverse]
    cases hd : dw with
    | nil =>
      subst hd
      simp at hne
    | cons d0 dt =>
      exact ⟨d0, rfl, hdw d0 dt hd⟩

theorem joinLines_last_ne_nil : ∀ (t : List Str) (x : Str),
    t.getLast? = some x → x ≠ [] → joinLines t ≠ [] := by
  intro t
  induction t with
  | nil => intro x hx; simp at hx
  | cons l rest ih =>
    intro x hx hxne
    cases rest with
    | nil =>
      simp only [List.getLast?_singleton, Option.some.injEq] at hx
      subst hx
      simpa [joinLines] using hxne
    | cons l2 rest2 =>
      show l ++ '\n' :: joinLines (l2 :: rest2) ≠ []
      simp

/-! ## Claim theorems: metadata parser (C3, C4, C9) -/

/-- C3 at its failing inputs: when no `/** ... */` block exists — the
empty text, or a `/**` with no later `*/` — `extract_cve_meta` returns
the early dict with only FOUR keys: `patch_description` is missing
entirely, not present-with-absent-value as the Metadata contract
requires (the five-key dict is only built on the parsing path). -/
theorem extract_cve_meta_missing_description_key :
    extract_cve_meta [] = initMeta4 ∧
    extract_cve_meta (("/** @name x, no end marker").data) = initMeta4 ∧
    extract_cve_meta (("no comment block here").data) = initMeta4 ∧
    initMeta4.lookup kPatchDescription = none ∧
    initMeta4.length = 4 ∧
    initMeta4.lookup kName = some none ∧
    initMeta4.lookup kPatchCommit = some none ∧
    initMeta4.lookup kSourceFile = some none ∧
    initMeta4.lookup kPatchDiff = some none := by
  refine ⟨by decide, by decide, by decide, by decide, by decide, by decide,
    by decide, by decide, by decide⟩

/-- C4: while collecting a multi-line field, a line that begins a new
recognised label ends the collection and is re-processed under the
Normal rules with the buffers untouched (it is neither consumed into a
buffer nor dropped); any other (non-closing) line is appended to the
active buffer after `* ` decoration stripping and `&#47;` unescaping.
The closed conjunct shows a label line seen mid-collection setting its
scalar field end-to-end. -/
theorem collecting_reprocesses_label (st : MetaState) (line : Str)
    (hcol : st.collectingDiff = true ∨ st.collectingDesc = true)
    (hnc : startsWithCloseComment line = false) :
    (newLabelMatch line = true →
      lineStep st line = some (normalStep
        { st with collectingDiff := false, collectingDesc := false } line) ∧
      (normalStep { st with collectingDiff := false, collectingDesc := false }
        line).diffLines = st.diffLines ∧
      (normalStep { st with collectingDiff := false, collectingDesc := false }
        line).descLines = st.descLines) ∧
    (newLabelMatch line = false →
      (st.collectingDiff = true →
        lineStep st line = some { st with diffLines :=
          st.diffLines ++ [unescapeSlash (stripDecoration line)] }) ∧
      (st.collectingDiff = false →
        lineStep st line = some { st with descLines :=
          st.descLines ++ [unescapeSlash (stripDecoration line)] })) ∧
    (extract_cve_meta (("/**\n * @patch-diff |\n * d1\n * @name N\n */x").data)).lookup
      kName = some (some (("N").data)) ∧
    (extract_cve_meta (("/**\n * @patch-diff |\n * d1\n * @name N\n */x").data)).lookup
      kPatchDiff = some (some (("d1").data)) := by
  have hcol2 : (st.collectingDiff || st.collectingDesc) = true := by
    cases hcol with
    | inl h => simp [h]
    | inr h => simp [h]
  refine ⟨?_, ?_, by decide, by decide⟩
  · intro hnl
    refine ⟨?_, (normalStep_diffLines _ _).1, (normalStep_diffLines _ _).2⟩
    unfold lineStep
    rw [if_pos hcol2, if_neg (by simp [hnc]), if_pos (by simp [hnl])]
  · intro hnl
    constructor
    · intro hcd
      unfold lineStep
      rw [if_pos hcol2, if_neg (by simp [hnc]), if_neg (by simp [hnl]),
        if_pos (by simp [hcd])]
    · intro hcd
      unfold lineStep
      rw [if_pos hcol2, if_neg (by simp [hnc]), if_neg (by simp [hnl]),
        if_neg (by simp [hcd])]

/-- C4 witness: the theorem at a concrete collecting state, once with a
label line and once with a content line. -/
theorem collecting_reprocesses_label_witness :
    (newLabelMatch ((" * @name N").data) = true →
      lineStep ⟨true, false, [("x").data], [], initMeta5⟩ ((" * @name N").data)
        = some (normalStep ⟨false, false, [("x").data], [], initMeta5⟩
            ((" * @name N").data)) ∧
      (normalStep ⟨false, false, [("x").data], [], initMeta5⟩
        ((" * @name N").data)).diffLines = [("x").data] ∧
      (normalStep ⟨false, false, [("x").data], [], initMeta5⟩
        ((" * @name N").data)).descLines = []) ∧
    (newLabelMatch ((" * @name N").data) = false →
      (True → lineStep ⟨true, false, [("x").data], [], initMeta5⟩
        ((" * @name N").data) = some ⟨true, false, [("x").data] ++
          [unescapeSlash (stripDecoration ((" * @name N").data))], [], initMeta5⟩) ∧
      (False → True)) := by
  have h := collecting_reprocesses_label ⟨true, false, [("x").data], [], initMeta5⟩
    ((" * @name N").data) (Or.inl rfl) (by decide)
  refine ⟨fun hl => h.1 hl, fun hl => ⟨fun _ => (h.2.1 hl).1 rfl, fun hf => hf.elim⟩⟩

theorem finalizeField_lookup_ne (meta : List (Str × Option Str)) (key key2 : Str)
    (buf : List Str) (hne : key2 ≠ key) :
    (finalizeField meta key buf).lookup key2 = meta.lookup key2 := by
  unfold finalizeField
  split
  · rfl
  · exact dictSet_lookup_ne _ _ _ _ hne

theorem finalizeField_lookup_result (meta : List (Str × Option Str)) (key : Str)
    (buf : List Str) :
    (finalizeField meta key buf).lookup key =
      if buf.isEmpty then meta.lookup key
      else some (if (trimTrailingBlank buf).isEmpty then none
        else some (joinLines (trimTrailingBlank buf))) := by
  unfold finalizeField
  split
  · rfl
  · exact dictSet_lookup_self _ _ _

/-- C9: trailing all-whitespace lines are trimmed from a multi-line
buffer before assignment (the kept prefix ends in a non-blank line);
an untouched empty buffer leaves the field as initialised, an
all-blank buffer stores the field as absent, and a surviving buffer is
joined with newlines — so the two multi-line fields of
`extract_cve_meta` are never the empty string. -/
theorem multiline_trim_and_absent :
    (∀ buf : List Str, ∃ k, k ≤ buf.length ∧
      trimTrailingBlank buf = buf.take k ∧
      (∀ x ∈ buf.drop k, (pyStrip x).isEmpty = true) ∧
      (trimTrailingBlank buf ≠ [] →
        ∃ x, (trimTrailingBlank buf).getLast? = some x ∧
          (pyStrip x).isEmpty = false)) ∧
    (∀ (meta : List (Str × Option Str)) (key : Str),
      finalizeField meta key [] = meta) ∧
    (∀ (meta : List (Str × Option Str)) (key : Str) (buf : List Str),
      buf ≠ [] → trimTrailingBlank buf = [] →
      (finalizeField meta key buf).lookup key = some none) ∧
    (∀ (meta : List (Str × Option Str)) (key : Str) (buf : List Str),
      buf ≠ [] → trimTrailingBlank buf ≠ [] →
      (finalizeField meta key buf).lookup key
        = some (some (joinLines (trimTrailingBlank buf)))) ∧
    (∀ content : Str,
      (extract_cve_meta content).lookup kPatchDiff ≠ some (some []) ∧
      (extract_cve_meta content).lookup kPatchDescription ≠ some (some [])) := by
  have hfin : ∀ (meta : List (Str × Option Str)) (key : Str) (buf : List Str),
      buf ≠ [] →
      (finalizeField meta key buf).lookup key
        = some (if (trimTrailingBlank buf).isEmpty then none
            else some (joinLines (trimTrailingBlank buf))) := by
    intro meta key buf hne
    unfold finalizeField
    rw [if_neg (by simpa using hne)]
    exact dictSet_lookup_self _ _ _
  have hjoin : ∀ buf : List Str, trimTrailingBlank buf ≠ [] →
      joinLines (trimTrailingBlank buf) ≠ [] := by
    intro buf hne
    obtain ⟨k, -, -, -, hlast⟩ := trimTrailingBlank_spec buf
    obtain ⟨x, hx, hxblank⟩ := hlast hne
    refine joinLines_last_ne_nil _ x hx ?_
    intro hxnil
    subst hxnil
    simp [pyStrip] at hxblank
  refine ⟨trimTrailingBlank_spec, ?_, ?_, ?_, ?_⟩
  · intro meta key
    unfold finalizeField
    rw [if_pos (by simp)]
  · intro meta key buf hne htr
    rw [hfin meta key buf hne, htr]
    simp
  · intro meta key buf hne htr
    rw [hfin meta key buf hne]
    rw [if_neg (by simpa using htr)]
  · intro content
    unfold extract_cve_meta
    split
    · exact ⟨by decide, by decide⟩
    case _ start heqs =>
      split
      · exact ⟨by decide, by decide⟩
      case _ stop heqe =>
        set st := runLines ⟨false, false, [], [], initMeta5⟩
          (splitPy ((content.drop start).take (stop - start))) with hst
        have hdiff_base : st.meta.lookup kPatchDiff = some none := by
          rw [hst, runLines_lookup kPatchDiff (by decide) (by decide) (by decide)]
          decide
        have hdesc_base : st.meta.lookup kPatchDescription = some none := by
          rw [hst, runLines_lookup kPatchDescription (by decide) (by decide) (by decide)]
          decide
        constructor
        · rw [finalizeField_lookup_ne _ _ _ _ (by decide)]
          rw [finalizeField_lookup_result]
          split
          · rw [hdiff_base]
            simp
          · split
            · simp
            case _ htr =>
              intro hcontra
              simp only [Option.some.injEq] at hcontra
              exact hjoin st.diffLines (by simpa using htr) hcontra
        · rw [finalizeField_lookup_result]
          split
          · rw [finalizeField_lookup_ne _ _ _ _ (by decide), hdesc_base]
            simp
          · split
            · simp
            case _ htr =>
              intro hcontra
              simp only [Option.some.injEq] at hcontra
              exact hjoin st.descLines (by simpa using htr) hcontra

theorem braceBal_append : ∀ (a b : Str), braceBal (a ++ b) = braceBal a + braceBal b := by
  intro a b
  induction a with
  | nil => simp [braceBal]
  | cons c r ih =>
    simp only [List.cons_append, braceBal, List.append_eq, ih]
    ring

theorem braceScan_spec : ∀ (l : Str) (d : Int) (n : Nat), braceScan l d = some n →
    1 ≤ n ∧ n ≤ l.length ∧ l.get? (n - 1) = some rbrace ∧
    d + braceBal (l.take n) = 0 ∧
    (∀ m, 1 ≤ m → m < n → l.get? (m - 1) = some rbrace →
      d + braceBal (l.take m) ≠ 0) := by
  intro l
  induction l with
  | nil => intro d n h; exact absurd h (by simp [braceScan])
  | cons c r ih =>
    intro d n h
    unfold braceScan at h
    by_cases hc1 : c = lbrace
    · rw [if_pos hc1] at h
      obtain ⟨n2, hbs, hn⟩ := Option.map_eq_some'.mp h
      subst hn
      obtain ⟨hb1, hb2, hb3, hb4, hb5⟩ := ih (d + 1) n2 hbs
      have hcne : c ≠ rbrace := by rw [hc1]; decide
      refine ⟨by omega, by simp; omega, ?_, ?_, ?_⟩
      · match n2, hb1 with
        | m + 1, _ =>
          simpa [List.get?_cons_succ] using hb3
      · rw [List.take_succ_cons, braceBal]
        rw [if_pos hc1, if_neg hcne]
        omega
      · intro m hm1 hm2 hget
        match m, hm1 with
        | 1, _ =>
          rw [List.get?_cons_zero] at hget
          exact absurd (Option.some.inj hget) hcne
        | m2 + 2, _ =>
          have e1 : m2 + 2 - 1 = m2 + 1 := by omega
          rw [e1, List.get?_cons_succ] at hget
          have e2 : m2 + 1 - 1 = m2 := by omega
          have hb := hb5 (m2 + 1) (by omega) (by omega) (by rw [e2]; exact hget)
          have e3 : m2 + 2 = (m2 + 1) + 1 := by omega
          rw [e3, List.take_succ_cons, braceBal, if_pos hc1, if_neg hcne]
          omega
    · rw [if_neg hc1] at h
      by_cases hc2 : c = rbrace
      · rw [if_pos hc2] at h
        by_cases hd : d - 1 = 0
        · rw [if_pos hd] at h
          have hn : n = 1 := (Option.some.inj h).symm
          subst hn
          refine ⟨le_refl _, by simp, by simpa using hc2, ?_, ?_⟩
          · rw [List.take_succ_cons, List.take_zero, braceBal, braceBal]
            rw [if_neg hc1, if_pos hc2]
            omega
          · intro m hm1 hm2
            omega
        · rw [if_neg hd] at h
          obtain ⟨n2, hbs, hn⟩ := Option.map_eq_some'.mp h
          subst hn
          obtain ⟨hb1, hb2, hb3, hb4, hb5⟩ := ih (d - 1) n2 hbs
          refine ⟨by omega, by simp; omega, ?_, ?_, ?_⟩
          · match n2, hb1 with
            | m + 1, _ =>
              simpa [List.get?_cons_succ] using hb3
          · rw [List.take_succ_cons, braceBal]
            rw [if_neg hc1, if_pos hc2]
            omega
          · intro m hm1 hm2 hget
            match m, hm1 with
            | 1, _ =>
              rw [List.take_succ_cons, List.take_zero, braceBal, braceBal]
              rw [if_neg hc1, if_pos hc2]
              omega
            | m2 + 2, _ =>
              have e1 : m2 + 2 - 1 = m2 + 1 := by omega
              rw [e1, List.get?_cons_succ] at hget
              have e2 : m2 + 1 - 1 = m2 := by omega
              have hb := hb5 (m2 + 1) (by omega) (by omega) (by rw [e2]; exact hget)
              have e3 : m2 + 2 = (m2 + 1) + 1 := by omega
              rw [e3, List.take_succ_cons, braceBal, if_neg hc1, if_pos hc2]
              omega
      · rw [if_neg hc2] at h
        obtain ⟨n2, hbs, hn⟩ := Option.map_eq_some'.mp h
        subst hn
        obtain ⟨hb1, hb2, hb3, hb4, hb5⟩ := ih d n2 hbs
        refine ⟨by omega, by simp; omega, ?_, ?_, ?_⟩
        · match n2, hb1 with
          | m + 1, _ =>
            simpa [List.get?_cons_succ] using hb3
        · rw [List.take_succ_cons, braceBal]
          rw [if_neg hc1, if_neg hc2]
          omega
        · intro m hm1 hm2 hget
          match m, hm1 with
          | 1, _ =>
            rw [List.get?_cons_zero] at hget
            exact absurd (Option.some.inj hget) hc2
          | m2 + 2, _ =>
            have e1 : m2 + 2 - 1 = m2 + 1 := by omega
            rw [e1, List.get?_cons_succ] at hget
            have e2 : m2 + 1 - 1 = m2 := by omega
            have hb := hb5 (m2 + 1) (by omega) (by omega) (by rw [e2]; exact hget)
            have e3 : m2 + 2 = (m2 + 1) + 1 := by omega
            rw [e3, List.take_succ_cons, braceBal, if_neg hc1, if_neg hc2]
            omega

theorem balanced_of_braceScan {l : Str} {n : Nat}
    (hhead : l.get? 0 = some lbrace) (h : braceScan l 0 = some n) :
    balancedBrace (l.take n) := by
  obtain ⟨hb1, hb2, hb3, hb4, hb5⟩ := braceScan_spec l 0 n h
  have hpos : ∀ m, 1 ≤ m → m < n → 1 ≤ braceBal (l.take m) := by
    intro m
    induction m with
    | zero => intro hm; omega
    | succ m2 ihm =>
      intro hm1 hm2
      cases Nat.eq_or_lt_of_le hm1 with
      | inl h1 =>
        have hm0 : m2 = 0 := by omega
        subst hm0
        cases l with
        | nil => simp at hhead
        | cons c r =>
          have hc : c = lbrace := Option.some.inj hhead
          rw [List.take_succ_cons, List.take_zero, braceBal, braceBal]
          rw [if_pos hc, if_neg (by rw [hc]; decide)]
          omega
      | inr h1 =>
        have hprev : 1 ≤ braceBal (l.take m2) := ihm (by omega) (by omega)
        have hm2l : m2 < l.length := by omega
        obtain ⟨x, hx⟩ : ∃ x, l.get? m2 = some x := by
          rw [List.get?_eq_get hm2l]
          exact ⟨_, rfl⟩
        have hx2 : l[m2]? = some x := by
          rw [← List.get?_eq_getElem?]
          exact hx
        have hstep : l.take (m2 + 1) = l.take m2 ++ [x] := by
          rw [List.take_succ, hx2]
          rfl
        rw [hstep, braceBal_append]
        by_cases hxl : x = lbrace
        · have hxnr : x ≠ rbrace := by
            rw [hxl]
            decide
          simp only [braceBal, if_pos hxl, if_neg hxnr]
          omega
        · by_cases hxr : x = rbrace
          · have hgr : l.get? (m2 + 1 - 1) = some rbrace := by
              have e : m2 + 1 - 1 = m2 := by omega
              rw [e, hx, hxr]
            have hne := hb5 (m2 + 1) (by omega) (by omega) hgr
            rw [hstep, braceBal_append] at hne
            simp only [braceBal, if_neg hxl, if_pos hxr] at hne ⊢
            omega
          · simp only [braceBal, if_neg hxl, if_neg hxr]
            omega
  have hn_le : (l.take n).length = n := by
    rw [List.length_take]
    omega
  refine ⟨?_, ?_, ?_, ?_⟩
  · rw [List.get?_take (by omega)]
    exact hhead
  · rw [hn_le, List.get?_take (by omega)]
    exact hb3
  · have : l.take n = l.take n := rfl
    simpa using hb4
  · intro m hm1 hm2
    rw [hn_le] at hm2
    rw [List.take_take]
    rw [min_eq_left (by omega)]
    exact hpos m hm1 hm2

theorem matchMacroHead_suffix {l rest : Str} (h : matchMacroHead l = some rest) :
    rest <:+ l := by
  unfold matchMacroHead at h
  split at h
  · exact absurd h (by simp)
  case _ c r heq1 =>
    have hs1 : r <:+ l := by
      have h0 : r <:+ l.dropWhile isPySpace := by
        rw [heq1]
        exact List.suffix_cons _ _
      exact h0.trans (List.dropWhile_suffix _)
    split at h
    · split at h
      case _ rest2 heq2 =>
        simp only [Option.some.injEq] at h
        have h0 : rest2 <:+ (r.dropWhile isMacroCh).dropWhile isPySpace := by
          rw [heq2]
          exact List.suffix_cons _ _
        rw [← h]
        exact (h0.trans ((List.dropWhile_suffix _).trans
          (List.dropWhile_suffix _))).trans hs1
      case _ =>
        exact absurd h (by simp)
    · exact absurd h (by simp)

theorem matchMacroHead_drop {l rest : Str} (h : matchMacroHead l = some rest) :
    rest = l.drop (l.length - rest.length) :=
  suffix_eq_drop (matchMacroHead_suffix h)

theorem findCharIdx_spec {c : Char} : ∀ {l : Str} {i : Nat},
    findCharIdx c l = some i →
    i < l.length ∧ l.get? i = some c ∧ ∀ j, j < i → l.get? j ≠ some c := by
  intro l
  induction l with
  | nil => intro i h; exact absurd h (by simp [findCharIdx])
  | cons x r ih =>
    intro i h
    unfold findCharIdx at h
    split at h
    case _ hx =>
      have hi : i = 0 := (Option.some.inj h).symm
      subst hi
      subst hx
      exact ⟨by simp, by simp, fun j hj => absurd hj (by omega)⟩
    case _ hx =>
      obtain ⟨i2, hf, hi⟩ := Option.map_eq_some'.mp h
      subst hi
      obtain ⟨h1, h2, h3⟩ := ih hf
      refine ⟨by simp; omega, by simpa using h2, ?_⟩
      intro j hj
      cases j with
      | zero =>
        simp only [List.get?_cons_zero]
        intro hcon
        exact hx (Option.some.inj hcon)
      | succ j2 =>
        rw [List.get?_cons_succ]
        exact h3 j2 (by omega)

theorem macroMatchesF_sound : ∀ (fuel : Nat) (l : Str) (pos : Nat) (atLS : Bool),
    l.length < fuel → ∀ pk ∈ macroMatchesF fuel l pos atLS,
    pos ≤ pk.1 ∧ 2 ≤ pk.2 ∧ pk.1 + pk.2 ≤ pos + l.length ∧
    matchMacroHead (l.drop (pk.1 - pos)) = some (l.drop (pk.1 - pos + pk.2)) ∧
    (pk.1 = pos → atLS = true) ∧
    (pos < pk.1 → l.get? (pk.1 - pos - 1) = some '\n') := by
  intro fuel
  induction fuel with
  | zero => intro l pos atLS h pk hpk; omega
  | succ n ih =>
    intro l pos atLS h pk hpk
    simp only [macroMatchesF] at hpk
    revert hpk
    cases l with
    | nil => intro hpk; simp at hpk
    | cons c t =>
      simp only [List.length_cons] at h
      cases atLS with
      | false =>
        simp only [Bool.false_eq_true, if_false]
        intro hpk
        have hr := ih t (pos + 1) (c == '\n') (by omega) pk hpk
        obtain ⟨ha, hb, hc, hd, he, hf⟩ := hr
        refine ⟨by omega, hb, by simp only [List.length_cons]; omega, ?_, ?_, ?_⟩
        · have e1 : pk.1 - pos = (pk.1 - (pos + 1)) + 1 := by omega
          rw [e1]
          have e2 : pk.1 - (pos + 1) + 1 + pk.2 = (pk.1 - (pos + 1) + pk.2) + 1 := by
            omega
          rw [e2]
          simpa [List.drop_succ_cons] using hd
        · intro hpos
          omega
        · intro hpos
          by_cases hq : pk.1 = pos + 1
          · have hcn := he hq
            have : c = '\n' := by simpa using hcn
            subst this
            have e1 : pk.1 - pos - 1 = 0 := by omega
            rw [e1]
            simp
          · have hgt : pos + 1 < pk.1 := by omega
            have := hf hgt
            have e1 : pk.1 - pos - 1 = (pk.1 - (pos + 1) - 1) + 1 := by omega
            rw [e1, List.get?_cons_succ]
            exact this
      | true =>
        simp only [if_true]
        cases hm : matchMacroHead (c :: t) with
        | none =>
          simp only [Option.elim]
          intro hpk
          have hr := ih t (pos + 1) (c == '\n') (by omega) pk hpk
          obtain ⟨ha, hb, hc, hd, he, hf⟩ := hr
          refine ⟨by omega, hb, by simp only [List.length_cons]; omega, ?_, ?_, ?_⟩
          · have e1 : pk.1 - pos = (pk.1 - (pos + 1)) + 1 := by omega
            rw [e1]
            have e2 : pk.1 - (pos + 1) + 1 + pk.2 = (pk.1 - (pos + 1) + pk.2) + 1 := by
              omega
            rw [e2]
            simpa [List.drop_succ_cons] using hd
          · intro hpos
            omega
          · intro hpos
            by_cases hq : pk.1 = pos + 1
            · have hcn := he hq
              have : c = '\n' := by simpa using hcn
              subst this
              have e1 : pk.1 - pos - 1 = 0 := by omega
              rw [e1]
              simp
            · have hgt : pos + 1 < pk.1 := by omega
              have := hf hgt
              have e1 : pk.1 - pos - 1 = (pk.1 - (pos + 1) - 1) + 1 := by omega
              rw [e1, List.get?_cons_succ]
              exact this
        | some rest =>
          simp only [Option.elim]
          intro hpk
          have hlen := matchMacroHead_length hm
          have hdrop := matchMacroHead_drop hm
          simp only [List.mem_cons] at hpk
          set k := (c :: t).length - rest.length with hkdef
          cases hpk with
          | inl h1 =>
            subst h1
            refine ⟨le_refl _, ?_, ?_, ?_, by simp, ?_⟩
            · show 2 ≤ k
              simp only [List.length_cons] at hlen hkdef ⊢
              omega
            · show pos + k ≤ pos + (c :: t).length
              simp only [List.length_cons] at hlen hkdef ⊢
              omega
            · show matchMacroHead ((c :: t).drop (pos - pos))
                = some ((c :: t).drop (pos - pos + k))
              rw [Nat.sub_self, List.drop_zero, Nat.zero_add, hm, hkdef, ← hdrop]
            · intro hpos
              omega
          | inr h2 =>
            have hr := ih rest (pos + k) false (by
              simp only [List.length_cons] at hlen h ⊢
              omega) pk h2
            obtain ⟨ha, hb, hc, hd, he, hf⟩ := hr
            have hgt : pos + k < pk.1 := by
              rcases Nat.eq_or_lt_of_le ha with h3 | h3
              · exact absurd (he h3.symm) (by simp)
              · exact h3
            have hk2 : 2 ≤ k := by
              simp only [List.length_cons] at hlen hkdef ⊢
              omega
            refine ⟨by omega, hb, ?_, ?_, ?_, ?_⟩
            · have hcc : pk.1 + pk.2 ≤ pos + k + rest.length := hc
              simp only [List.length_cons] at hlen hkdef ⊢
              omega
            · rw [hdrop] at hd
              rw [List.drop_drop, List.drop_drop] at hd
              have e1 : k + (pk.1 - (pos + k)) = pk.1 - pos := by omega
              have e2 : k + (pk.1 - (pos + k) + pk.2) = pk.1 - pos + pk.2 := by
                omega
              rw [e1, e2] at hd
              exact hd
            · intro hpos
              omega
            · intro hpos
              have hln := hf hgt
              rw [hdrop] at hln
              rw [List.get?_drop] at hln
              have e1 : k + (pk.1 - (pos + k) - 1) = pk.1 - pos - 1 := by omega
              rw [e1] at hln
              exact hln

theorem macro_block_mem_spec {src : Str} {sb eb : Nat}
    (hmem : (sb, eb) ∈ _find_macro_blocks src) :
    ∃ p k b n,
      (p = 0 ∨ src.get? (p - 1) = some '\n') ∧
      matchMacroHead (src.drop p) = some (src.drop (p + k)) ∧ 2 ≤ k ∧
      p + k ≤ b ∧ src.get? b = some lbrace ∧
      (∀ j, p + k ≤ j → j < b → src.get? j ≠ some lbrace) ∧
      1 ≤ n ∧ b + n ≤ src.length ∧
      balancedBrace ((src.drop b).take n) ∧
      sb = utf8Len (src.take p) ∧ eb = utf8Len (src.take (b + n)) ∧ sb < eb := by
  unfold _find_macro_blocks at hmem
  split at hmem
  · simp at hmem
  case _ hne =>
    rw [List.mem_filterMap] at hmem
    obtain ⟨pk, hpk, hcb⟩ := hmem
    have hs := macroMatchesF_sound (src.length + 1) src 0 true (by omega) pk hpk
    obtain ⟨-, hk2, hbound, hmatch, hls0, hlsn⟩ := hs
    rw [Nat.sub_zero] at hmatch
    have hls : pk.1 = 0 ∨ src.get? (pk.1 - 1) = some '\n' := by
      by_cases h0 : pk.1 = 0
      · exact Or.inl h0
      · exact Or.inr (hlsn (by omega))
    unfold closeBlock at hcb
    split at hcb
    · exact absurd hcb (by simp)
    case _ bi hfind =>
      split at hcb
      · exact absurd hcb (by simp)
      case _ n hbs =>
        simp only [Option.some.injEq, Prod.mk.injEq] at hcb
        obtain ⟨hsb, heb⟩ := hcb
        obtain ⟨hbi_lt, hbi_get, hbi_first⟩ := findCharIdx_spec hfind
        obtain ⟨hn1, hn2, -, -, -⟩ := braceScan_spec _ 0 n hbs
        have hdd : (src.drop (pk.1 + pk.2)).drop bi = src.drop (pk.1 + pk.2 + bi) := by
          rw [List.drop_drop]
        have hget_b : src.get? (pk.1 + pk.2 + bi) = some lbrace := by
          rw [← List.get?_drop]
          exact hbi_get
        have hlen_dd : ((src.drop (pk.1 + pk.2)).drop bi).length
            = src.length - (pk.1 + pk.2) - bi := by
          simp only [List.length_drop]
        have hbilt2 : bi < src.length - (pk.1 + pk.2) := by
          have := hbi_lt
          rw [List.length_drop] at this
          omega
        refine ⟨pk.1, pk.2, pk.1 + pk.2 + bi, n, hls, hmatch, hk2, by omega,
          hget_b, ?_, hn1, ?_, ?_, hsb.symm, ?_, ?_⟩
        · intro j hj1 hj2
          have hj3 : j - (pk.1 + pk.2) < bi := by omega
          have := hbi_first (j - (pk.1 + pk.2)) hj3
          rw [List.get?_drop] at this
          have e1 : pk.1 + pk.2 + (j - (pk.1 + pk.2)) = j := by omega
          rw [e1] at this
          exact this
        · rw [hlen_dd] at hn2
          omega
        · apply balanced_of_braceScan
          · rw [List.get?_drop, Nat.add_zero]
            exact hget_b
          · rw [← hdd]
            exact hbs
        · rw [← heb]
        · rw [← hsb, ← heb]
          apply utf8Len_take_lt
          · omega
          · rw [hlen_dd] at hn2
            omega

/-- C8: every `(start_byte, end_byte)` pair produced by
`_find_macro_blocks` is a brace-balanced block: it begins at a line-start
match of the uppercase-macro head pattern, its block part starts at the
first `{` after that match, the block segment starts with `{`, ends with
the `}` at which the depth first returns to 0 (strictly positive brace
balance on every proper prefix, zero overall), and both offsets are
UTF-8 byte offsets of the corresponding character positions; candidates
with no `{` or no closing `}` contribute no pair. -/
theorem macro_blocks_are_balanced_blocks (src : Str) (sb eb : Nat)
    (hmem : (sb, eb) ∈ _find_macro_blocks src) :
    ∃ p k b n,
      (p = 0 ∨ src.get? (p - 1) = some '\n') ∧
      matchMacroHead (src.drop p) = some (src.drop (p + k)) ∧ 2 ≤ k ∧
      p + k ≤ b ∧ src.get? b = some lbrace ∧
      (∀ j, p + k ≤ j → j < b → src.get? j ≠ some lbrace) ∧
      1 ≤ n ∧ b + n ≤ src.length ∧
      balancedBrace ((src.drop b).take n) ∧
      sb = utf8Len (src.take p) ∧ eb = utf8Len (src.take (b + n)) ∧ sb < eb :=
  macro_block_mem_spec hmem

/-- C8 witness: the theorem at the macro block of a concrete source. -/
theorem macro_blocks_are_balanced_blocks_witness :
    ∃ p k b n,
      (p = 0 ∨ (("FOO(x)\n" ++ "\x7b \x7b \x7d \x7d\n").data).get? (p - 1) = some '\n') ∧
      matchMacroHead ((("FOO(x)\n" ++ "\x7b \x7b \x7d \x7d\n").data).drop p)
        = some ((("FOO(x)\n" ++ "\x7b \x7b \x7d \x7d\n").data).drop (p + k)) ∧ 2 ≤ k ∧
      p + k ≤ b ∧ (("FOO(x)\n" ++ "\x7b \x7b \x7d \x7d\n").data).get? b = some lbrace ∧
      (∀ j, p + k ≤ j → j < b →
        (("FOO(x)\n" ++ "\x7b \x7b \x7d \x7d\n").data).get? j ≠ some lbrace) ∧
      1 ≤ n ∧ b + n ≤ (("FOO(x)\n" ++ "\x7b \x7b \x7d \x7d\n").data).length ∧
      balancedBrace (((("FOO(x)\n" ++ "\x7b \x7b \x7d \x7d\n").data).drop b).take n) ∧
      0 = utf8Len ((("FOO(x)\n" ++ "\x7b \x7b \x7d \x7d\n").data).take p) ∧
      14 = utf8Len ((("FOO(x)\n" ++ "\x7b \x7b \x7d \x7d\n").data).take (b + n)) ∧
      0 < 14 :=
  macro_blocks_are_balanced_blocks (("FOO(x)\n" ++ "\x7b \x7b \x7d \x7d\n").data) 0 14
    (by decide)

theorem codeHit_iff (rs re2 s e : Nat) :
    codeHit rs re2 s e = true ↔ (rs < e ∧ s < re2) := by
  unfold codeHit
  simp only [Bool.not_eq_true', Bool.or_eq_false_iff, decide_eq_false_iff_not,
    not_le]

theorem byteOverlap_iff (rs re2 s e : Nat) (h1 : rs < re2) (h2 : s < e) :
    byteOverlap rs re2 s e ↔ codeHit rs re2 s e = true := by
  rw [codeHit_iff]
  unfold byteOverlap
  omega

theorem byteOverlap_codeHit {rs re2 s e : Nat} (h : byteOverlap rs re2 s e) :
    codeHit rs re2 s e = true := by
  rw [codeHit_iff]
  unfold byteOverlap at h
  omega

theorem candLoop_mono (srcB : List Nat) (rs re2 : Nat) :
    ∀ (cands seen : List (Nat × Nat)) (acc : List ((Nat × Nat) × List Nat)),
    ∃ ext, (candLoop srcB rs re2 cands seen acc).2 = acc ++ ext := by
  intro cands
  induction cands with
  | nil => intro seen acc; exact ⟨[], by simp [candLoop]⟩
  | cons c rest ih =>
    intro seen acc
    obtain ⟨s0, e0⟩ := c
    unfold candLoop
    split
    · split
      · exact ih seen acc
      · obtain ⟨ext, hext⟩ := ih ((s0, e0) :: seen)
          (acc ++ [((s0, e0), pySlice srcB s0 e0)])
        exact ⟨[((s0, e0), pySlice srcB s0 e0)] ++ ext, by
          rw [hext, List.append_assoc]⟩
    · exact ih seen acc

theorem candLoop_iff (srcB : List Nat) (rs re2 : Nat) :
    ∀ (cands seen : List (Nat × Nat)) (acc : List ((Nat × Nat) × List Nat)),
    (∀ x, x ∈ acc.map Prod.fst ↔ x ∈ seen) →
    (∀ x, x ∈ (candLoop srcB rs re2 cands seen acc).2.map Prod.fst ↔
      x ∈ (candLoop srcB rs re2 cands seen acc).1) := by
  intro cands
  induction cands with
  | nil => intro seen acc h; simpa [candLoop] using h
  | cons c rest ih =>
    intro seen acc h
    obtain ⟨s0, e0⟩ := c
    unfold candLoop
    split
    · split
      · exact ih seen acc h
      · apply ih
        intro x
        rw [List.map_append, List.mem_append, List.mem_cons]
        simp only [List.map_cons, List.map_nil, List.mem_singleton]
        rw [h x]
        tauto
    · exact ih seen acc h

theorem candLoop_nodup (srcB : List Nat) (rs re2 : Nat) :
    ∀ (cands seen : List (Nat × Nat)) (acc : List ((Nat × Nat) × List Nat)),
    (∀ x, x ∈ acc.map Prod.fst ↔ x ∈ seen) →
    (acc.map Prod.fst).Nodup →
    ((candLoop srcB rs re2 cands seen acc).2.map Prod.fst).Nodup := by
  intro cands
  induction cands with
  | nil => intro seen acc h hd; simpa [candLoop] using hd
  | cons c rest ih =>
    intro seen acc h hd
    obtain ⟨s0, e0⟩ := c
    unfold candLoop
    split
    · split
      · exact ih seen acc h hd
      case _ hmem =>
        apply ih
        · intro x
          rw [List.map_append, List.mem_append, List.mem_cons]
          simp only [List.map_cons, List.map_nil, List.mem_singleton]
          rw [h x]
          tauto
        · rw [List.map_append]
          simp only [List.map_cons, List.map_nil]
          rw [List.nodup_append]
          refine ⟨hd, List.nodup_singleton _, ?_⟩
          intro a ha hb
          rw [List.mem_singleton] at hb
          subst hb
          exact hmem ((h (s0, e0)).mp ha)
    · exact ih seen acc h hd

theorem rangesLoop_mono (srcB lineOffsets : List Nat) (lines : List Str)
    (totalLen : Nat) (fn mb : List (Nat × Nat)) :
    ∀ (ranges : List (Int × Int)) (seen : List (Nat × Nat))
      (acc : List ((Nat × Nat) × List Nat)) out,
    rangesLoop srcB lineOffsets lines totalLen fn mb ranges seen acc = some out →
    ∃ ext, out.2 = acc ++ ext := by
  intro ranges
  induction ranges with
  | nil =>
    intro seen acc out h
    simp only [rangesLoop, Option.some.injEq] at h
    exact ⟨[], by rw [← h]; simp⟩
  | cons r rest ih =>
    intro seen acc out h
    obtain ⟨os, oe⟩ := r
    unfold rangesLoop at h
    cases hrb : range_to_bytes lineOffsets lines totalLen os oe with
    | none => rw [hrb] at h; exact absurd h (by simp)
    | some rr =>
      rw [hrb] at h
      simp only [Option.some_bind] at h
      split at h
      · exact ih seen acc out h
      · obtain ⟨ext, hext⟩ := ih _ _ out h
        obtain ⟨e2, he2⟩ := candLoop_mono srcB rr.1 rr.2 mb
          (candLoop srcB rr.1 rr.2 fn seen acc).1
          (candLoop srcB rr.1 rr.2 fn seen acc).2
        obtain ⟨e1, he1⟩ := candLoop_mono srcB rr.1 rr.2 fn seen acc
        exact ⟨e1 ++ e2 ++ ext, by
          rw [hext, he2, he1]
          simp [List.append_assoc]⟩

theorem rangesLoop_nodup (srcB lineOffsets : List Nat) (lines : List Str)
    (totalLen : Nat) (fn mb : List (Nat × Nat)) :
    ∀ (ranges : List (Int × Int)) (seen : List (Nat × Nat))
      (acc : List ((Nat × Nat) × List Nat)) out,
    (∀ x, x ∈ acc.map Prod.fst ↔ x ∈ seen) →
    (acc.map Prod.fst).Nodup →
    rangesLoop srcB lineOffsets lines totalLen fn mb ranges seen acc = some out →
    (out.2.map Prod.fst).Nodup := by
  intro ranges
  induction ranges with
  | nil =>
    intro seen acc out hiff hd h
    simp only [rangesLoop, Option.some.injEq] at h
    rw [← h]
    exact hd
  | cons r rest ih =>
    intro seen acc out hiff hd h
    obtain ⟨os, oe⟩ := r
    unfold rangesLoop at h
    cases hrb : range_to_bytes lineOffsets lines totalLen os oe with
    | none => rw [hrb] at h; exact absurd h (by simp)
    | some rr =>
      rw [hrb] at h
      simp only [Option.some_bind] at h
      split at h
      · exact ih seen acc out hiff hd h
      · refine ih _ _ out ?_ ?_ h
        · exact candLoop_iff srcB rr.1 rr.2 mb _ _
            (candLoop_iff srcB rr.1 rr.2 fn seen acc hiff)
        · exact candLoop_nodup srcB rr.1 rr.2 mb _ _
            (candLoop_iff srcB rr.1 rr.2 fn seen acc hiff)
            (candLoop_nodup srcB rr.1 rr.2 fn seen acc hiff hd)

/-- C1: no two snippets emitted by `find_functions_for_patch` come from
the same `(start_byte, end_byte)` candidate range: the dedup keys of
the tagged output are pairwise distinct, with the `seen` set shared
between function-node and macro-block candidates and across hunks. -/
theorem patch_snippets_no_duplicate_ranges (fn : List (Nat × Nat)) (src diff : Str)
    (out : List ((Nat × Nat) × List Nat))
    (h : find_functions_for_patch_tagged fn src diff = some out) :
    (out.map Prod.fst).Nodup := by
  unfold find_functions_for_patch_tagged at h
  split at h
  · have : out = [] := by
      have := Option.some.inj h
      exact this.symm
    subst this
    exact List.nodup_nil
  · split at h
    · have : out = [] := (Option.some.inj h).symm
      subst this
      exact List.nodup_nil
    · obtain ⟨pair, hrl, hout⟩ := Option.map_eq_some'.mp h
      subst hout
      exact rangesLoop_nodup _ _ _ _ fn _ _ [] [] pair
        (by simp) (by simp) hrl

/-- C1 witness: two hunks hitting the same macro block yield a single
tagged snippet, whose key list is duplicate-free. -/
theorem patch_snippets_no_duplicate_ranges_witness :
    (([(((0 : Nat), (10 : Nat)), ([70, 79, 79, 40, 120, 41, 10, 123, 32, 125] :
      List Nat))].map Prod.fst).Nodup) :=
  patch_snippets_no_duplicate_ranges [] (("FOO(x)\n" ++ "\x7b \x7d\n").data)
    (("@@ -1,2 +1,2 @@\n" ++ "@@ -2 +2 @@").data)
    [((0, 10), [70, 79, 79, 40, 120, 41, 10, 123, 32, 125])] (by decide)

theorem pyGetNat_isSome (l : List Nat) (i : Int) (hge : -1 ≤ i)
    (hlt : i < (l.length : Int)) (hl : 1 ≤ l.length) :
    ∃ v, pyGetNat l i = some v := by
  by_cases hn : i < 0
  · have hi : i = -1 := by omega
    subst hi
    have hpy : pyIdx l.length (-1) = (l.length : Int) - 1 := by
      unfold pyIdx
      rw [if_pos (by norm_num)]
      omega
    unfold pyGetNat
    rw [hpy]
    rw [if_pos (by omega)]
    have hidx : ((l.length : Int) - 1).toNat = l.length - 1 := by omega
    rw [hidx]
    rw [List.get?_eq_get (by omega)]
    exact ⟨_, rfl⟩
  · rw [pyGetNat_nonneg l i (by omega)]
    rw [List.get?_eq_get (by omega)]
    exact ⟨_, rfl⟩

theorem pyGetLine_isSome (l : List Str) (i : Int) (hge : -1 ≤ i)
    (hlt : i < (l.length : Int)) (hl : 1 ≤ l.length) :
    ∃ v, pyGetLine l i = some v := by
  by_cases hn : i < 0
  · have hi : i = -1 := by omega
    subst hi
    have hpy : pyIdx l.length (-1) = (l.length : Int) - 1 := by
      unfold pyIdx
      rw [if_pos (by norm_num)]
      omega
    unfold pyGetLine
    rw [hpy]
    rw [if_pos (by omega)]
    have hidx : ((l.length : Int) - 1).toNat = l.length - 1 := by omega
    rw [hidx]
    rw [List.get?_eq_get (by omega)]
    exact ⟨_, rfl⟩
  · rw [pyGetLine_nonneg l i (by omega)]
    rw [List.get?_eq_get (by omega)]
    exact ⟨_, rfl⟩

theorem range_to_bytes_total (lineOffsets : List Nat) (lines : List Str)
    (totalLen : Nat) (os oe : Int) (hlen : lineOffsets.length = lines.length)
    (hpos : 1 ≤ lineOffsets.length) (h0 : 0 ≤ os) (_h1 : os - 1 ≤ oe) :
    ∃ rs re2, range_to_bytes lineOffsets lines totalLen os oe = some (rs, re2) := by
  have hm1 : (1 : Int) ≤ max 1 os := le_max_left _ _
  have hm2 : max 1 os ≤ max 1 os := le_refl _
  unfold range_to_bytes
  by_cases hio : oe < os
  · rw [if_pos hio]
    by_cases hg : max 1 os - 1 < (lineOffsets.length : Int)
    · rw [if_pos hg]
      obtain ⟨v, hv⟩ := pyGetNat_isSome lineOffsets (max 1 os - 1) (by omega)
        (by omega) hpos
      rw [hv]
      exact ⟨v, min (v + 1) totalLen, rfl⟩
    · rw [if_neg hg]
      exact ⟨totalLen, min (totalLen + 1) totalLen, rfl⟩
  · rw [if_neg hio]
    have hme : os ≤ max os oe := le_max_left _ _
    have hme2 : max os oe = oe := max_eq_right (by omega)
    have hstart : ∃ sv, (if max 1 os - 1 < (lineOffsets.length : Int)
        then pyGetNat lineOffsets (max 1 os - 1)
        else some totalLen) = some sv := by
      by_cases hg : max 1 os - 1 < (lineOffsets.length : Int)
      · rw [if_pos hg]
        exact pyGetNat_isSome lineOffsets (max 1 os - 1) (by omega) (by omega) hpos
      · rw [if_neg hg]
        exact ⟨totalLen, rfl⟩
    obtain ⟨sv, hsv⟩ := hstart
    rw [hsv]
    have hend : ∃ ev, (if max os oe - 1 < (lineOffsets.length : Int)
        then (pyGetLine lines (max os oe - 1)).bind
          (fun endLine => (pyGetNat lineOffsets (max os oe - 1)).map
            (fun o => o + endLine.length))
        else some totalLen) = some ev := by
      by_cases hg : max os oe - 1 < (lineOffsets.length : Int)
      · rw [if_pos hg]
        obtain ⟨lv, hlv⟩ := pyGetLine_isSome lines (max os oe - 1)
          (by omega) (by omega) (by omega)
        obtain ⟨ov, hov⟩ := pyGetNat_isSome lineOffsets (max os oe - 1)
          (by omega) (by omega) hpos
        rw [hlv]
        simp only [Option.some_bind]
        rw [hov]
        exact ⟨ov + lv.length, rfl⟩
      · rw [if_neg hg]
        exact ⟨totalLen, rfl⟩
    obtain ⟨ev, hev⟩ := hend
    rw [hev]
    exact ⟨sv, min ev totalLen, rfl⟩

theorem extract_old_ranges_bounds (d : Str) :
    ∀ r ∈ extract_old_ranges d, 0 ≤ r.1 ∧ r.1 - 1 ≤ r.2 := by
  intro r hr
  unfold extract_old_ranges at hr
  split at hr
  · simp at hr
  · rw [List.mem_map] at hr
    obtain ⟨m, -, hm⟩ := hr
    subst hm
    refine ⟨by positivity, ?_⟩
    unfold oldEndOf
    split
    · simp only
      omega
    · simp only
      omega

theorem macro_blocks_lt (src : Str) :
    ∀ se ∈ _find_macro_blocks src, se.1 < se.2 := by
  intro se hse
  obtain ⟨s0, e0⟩ := se
  obtain ⟨p, k, b, n, -, -, -, -, -, -, -, -, -, -, -, hlt⟩ :=
    macro_block_mem_spec hse
  exact hlt

theorem splitKeep_ne_nil (src : Str) (h : src ≠ []) : splitKeep src ≠ [] := by
  rw [splitKeep_spec]
  cases src with
  | nil => exact absurd rfl h
  | cons c t => simp

theorem candLoop_nohit (srcB : List Nat) (rs re2 : Nat) :
    ∀ (cands seen : List (Nat × Nat)) (acc : List ((Nat × Nat) × List Nat)),
    (∀ c ∈ cands, codeHit rs re2 c.1 c.2 = false) →
    candLoop srcB rs re2 cands seen acc = (seen, acc) := by
  intro cands
  induction cands with
  | nil => intro seen acc h; rfl
  | cons c rest ih =>
    intro seen acc h
    obtain ⟨s0, e0⟩ := c
    unfold candLoop
    rw [if_neg (by
      have := h (s0, e0) (by simp)
      simp [this])]
    exact ih seen acc (fun c2 hc2 => h c2 (by simp [hc2]))

theorem candLoop_hit_grows (srcB : List Nat) (rs re2 : Nat) :
    ∀ (cands seen : List (Nat × Nat)) (acc : List ((Nat × Nat) × List Nat))
      (c : Nat × Nat),
    c ∈ cands → codeHit rs re2 c.1 c.2 = true → c ∉ seen →
    ∃ ext, (candLoop srcB rs re2 cands seen acc).2 = acc ++ ext ∧ ext ≠ [] := by
  intro cands
  induction cands with
  | nil => intro seen acc c hc; simp at hc
  | cons x rest ih =>
    intro seen acc c hc hhit hseen
    obtain ⟨s0, e0⟩ := x
    rw [List.mem_cons] at hc
    unfold candLoop
    by_cases hx : codeHit rs re2 s0 e0 = true
    · rw [if_pos hx]
      by_cases hxs : (s0, e0) ∈ seen
      · rw [if_pos hxs]
        cases hc with
        | inl h1 =>
          subst h1
          exact absurd hxs hseen
        | inr h2 =>
          exact ih seen acc c h2 hhit hseen
      · rw [if_neg hxs]
        obtain ⟨ext, hext⟩ := candLoop_mono srcB rs re2 rest ((s0, e0) :: seen)
          (acc ++ [((s0, e0), pySlice srcB s0 e0)])
        refine ⟨[((s0, e0), pySlice srcB s0 e0)] ++ ext, ?_, by simp⟩
        rw [hext]
        simp [List.append_assoc]
    · rw [if_neg hx]
      cases hc with
      | inl h1 =>
        subst h1
        exact absurd hhit hx
      | inr h2 =>
        exact ih seen acc c h2 hhit hseen

theorem rangesLoop_total (srcB lineOffsets : List Nat) (lines : List Str)
    (totalLen : Nat) (fn mb : List (Nat × Nat)) :
    ∀ (ranges : List (Int × Int)) (seen : List (Nat × Nat))
      (acc : List ((Nat × Nat) × List Nat)),
    (∀ r ∈ ranges, ∃ rr, range_to_bytes lineOffsets lines totalLen r.1 r.2 = some rr) →
    ∃ out, rangesLoop srcB lineOffsets lines totalLen fn mb ranges seen acc
      = some out := by
  intro ranges
  induction ranges with
  | nil => intro seen acc h; exact ⟨_, rfl⟩
  | cons r rest ih =>
    intro seen acc h
    obtain ⟨os, oe⟩ := r
    obtain ⟨rr, hrr⟩ := h (os, oe) (by simp)
    unfold rangesLoop
    rw [hrr]
    simp only [Option.some_bind]
    split
    · exact ih seen acc (fun r2 hr2 => h r2 (by simp [hr2]))
    · exact ih _ _ (fun r2 hr2 => h r2 (by simp [hr2]))

theorem rangesLoop_noop (srcB lineOffsets : List Nat) (lines : List Str)
    (totalLen : Nat) (fn mb : List (Nat × Nat)) :
    ∀ (ranges : List (Int × Int)) (seen : List (Nat × Nat))
      (acc : List ((Nat × Nat) × List Nat)),
    (∀ r ∈ ranges, ∃ rr, range_to_bytes lineOffsets lines totalLen r.1 r.2 = some rr) →
    (∀ r ∈ ranges, ∀ rs re2,
      range_to_bytes lineOffsets lines totalLen r.1 r.2 = some (rs, re2) →
      rs < re2 → ∀ c ∈ fn ++ mb, codeHit rs re2 c.1 c.2 = false) →
    ∃ seenF, rangesLoop srcB lineOffsets lines totalLen fn mb ranges seen acc
      = some (seenF, acc) := by
  intro ranges
  induction ranges with
  | nil => intro seen acc ht hh; exact ⟨seen, rfl⟩
  | cons r rest ih =>
    intro seen acc ht hh
    obtain ⟨os, oe⟩ := r
    obtain ⟨rr, hrr⟩ := ht (os, oe) (by simp)
    unfold rangesLoop
    rw [hrr]
    simp only [Option.some_bind]
    split
    · exact ih seen acc (fun r2 hr2 => ht r2 (by simp [hr2]))
        (fun r2 hr2 => hh r2 (by simp [hr2]))
    case _ hlt =>
      have hempty : ∀ c ∈ fn ++ mb, codeHit rr.1 rr.2 c.1 c.2 = false := by
        intro c hc
        exact hh (os, oe) (by simp) rr.1 rr.2 (by rw [hrr]) (by omega) c hc
      have h1 : candLoop srcB rr.1 rr.2 fn seen acc = (seen, acc) :=
        candLoop_nohit srcB rr.1 rr.2 fn seen acc
          (fun c hc => hempty c (List.mem_append_left _ hc))
      have h2 : candLoop srcB rr.1 rr.2 mb seen acc = (seen, acc) :=
        candLoop_nohit srcB rr.1 rr.2 mb seen acc
          (fun c hc => hempty c (List.mem_append_right _ hc))
      rw [h1, h2]
      exact ih seen acc (fun r2 hr2 => ht r2 (by simp [hr2]))
        (fun r2 hr2 => hh r2 (by simp [hr2]))

theorem rangesLoop_empty_nohit (srcB lineOffsets : List Nat) (lines : List Str)
    (totalLen : Nat) (fn mb : List (Nat × Nat)) :
    ∀ (ranges : List (Int × Int)) (seen : List (Nat × Nat))
      (acc : List ((Nat × Nat) × List Nat)) out,
    (∀ x, x ∈ acc.map Prod.fst ↔ x ∈ seen) →
    rangesLoop srcB lineOffsets lines totalLen fn mb ranges seen acc = some out →
    out.2 = [] →
    ∀ r ∈ ranges, ∀ rs re2,
      range_to_bytes lineOffsets lines totalLen r.1 r.2 = some (rs, re2) →
      rs < re2 → ∀ c ∈ fn ++ mb, codeHit rs re2 c.1 c.2 = false := by
  intro ranges
  induction ranges with
  | nil => intro seen acc out hiff h hout r hr; simp at hr
  | cons r0 rest ih =>
    intro seen acc out hiff h hout r hr rs re2 hrb hlt c hc
    obtain ⟨os0, oe0⟩ := r0
    unfold rangesLoop at h
    cases hrr : range_to_bytes lineOffsets lines totalLen os0 oe0 with
    | none => rw [hrr] at h; exact absurd h (by simp)
    | some rr =>
      rw [hrr] at h
      simp only [Option.some_bind] at h
      split at h
      case _ hskip =>
        rw [List.mem_cons] at hr
        cases hr with
        | inl h1 =>
          exfalso
          rw [h1] at hrb
          rw [hrr] at hrb
          have : rr = (rs, re2) := Option.some.inj hrb
          subst this
          omega
        | inr h2 =>
          exact ih seen acc out hiff h hout r h2 rs re2 hrb hlt c hc
      case _ hskip =>
        have hacc0 : acc = [] := by
          obtain ⟨ext, hext⟩ := rangesLoop_mono srcB lineOffsets lines totalLen
            fn mb rest _ _ out h
          obtain ⟨e2, he2⟩ := candLoop_mono srcB rr.1 rr.2 mb
            (candLoop srcB rr.1 rr.2 fn seen acc).1
            (candLoop srcB rr.1 rr.2 fn seen acc).2
          obtain ⟨e1, he1⟩ := candLoop_mono srcB rr.1 rr.2 fn seen acc
          rw [hout, he2, he1] at hext
          have h0 := hext.symm
          rw [List.append_assoc, List.append_assoc] at h0
          simp only [List.append_eq_nil] at h0
          exact h0.1
        have hp1 : (candLoop srcB rr.1 rr.2 fn seen acc).2 = [] := by
          obtain ⟨ext, hext⟩ := rangesLoop_mono srcB lineOffsets lines totalLen
            fn mb rest _ _ out h
          obtain ⟨e2, he2⟩ := candLoop_mono srcB rr.1 rr.2 mb
            (candLoop srcB rr.1 rr.2 fn seen acc).1
            (candLoop srcB rr.1 rr.2 fn seen acc).2
          rw [hout, he2] at hext
          have h0 := hext.symm
          rw [List.append_assoc] at h0
          simp only [List.append_eq_nil] at h0
          exact h0.1
        have hp2 : (candLoop srcB rr.1 rr.2 mb
            (candLoop srcB rr.1 rr.2 fn seen acc).1
            (candLoop srcB rr.1 rr.2 fn seen acc).2).2 = [] := by
          obtain ⟨ext, hext⟩ := rangesLoop_mono srcB lineOffsets lines totalLen
            fn mb rest _ _ out h
          rw [hout] at hext
          have h0 := hext.symm
          simp only [List.append_eq_nil] at h0
          exact h0.1
        have hseen0 : seen = [] := by
          cases hs : seen with
          | nil => rfl
          | cons y ys =>
            exfalso
            have := (hiff y).mpr (by rw [hs]; simp)
            rw [hacc0] at this
            simp at this
        rw [List.mem_cons] at hr
        cases hr with
        | inl h1 =>
          rw [h1] at hrb
          rw [hrr] at hrb
          have hrr2 : rr = (rs, re2) := Option.some.inj hrb
          subst hrr2
          subst hacc0
          subst hseen0
          have hp1x : (candLoop srcB rs re2 fn [] []).2 = [] := hp1
          have hp2x : (candLoop srcB rs re2 mb (candLoop srcB rs re2 fn [] []).1
              (candLoop srcB rs re2 fn [] []).2).2 = [] := hp2
          by_contra hcontra
          rw [Bool.not_eq_false] at hcontra
          rw [List.mem_append] at hc
          cases hc with
          | inl hcf =>
            obtain ⟨ext, hext, hne⟩ := candLoop_hit_grows srcB rs re2 fn [] []
              c hcf hcontra (by simp)
            rw [hext] at hp1x
            simp at hp1x
            exact hne hp1x
          | inr hcm =>
            obtain ⟨ext, hext, hne⟩ := candLoop_hit_grows srcB rs re2 mb
              (candLoop srcB rs re2 fn [] []).1
              (candLoop srcB rs re2 fn [] []).2
              c hcm hcontra (by
                intro hmem
                have := (candLoop_iff srcB rs re2 fn [] [] hiff c).mpr hmem
                rw [hp1x] at this
                simp at this)
            rw [hp1x] at hext
            rw [hp1x] at hp2x
            rw [hext] at hp2x
            simp at hp2x
            exact hne hp2x
        | inr h2 =>
          exact ih _ _ out
            (candLoop_iff srcB rr.1 rr.2 mb _ _
              (candLoop_iff srcB rr.1 rr.2 fn seen acc hiff))
            h hout r h2 rs re2 hrb hlt c hc

/-- **C2.** For every source text and patch diff (and any well-formed
tree-sitter function spans), `find_functions_for_patch` returns without
error, and its snippet list is empty if and only if the source is empty,
the diff is empty, no hunk ranges were parsed from the diff, or no
candidate block's byte range intersects any hunk's byte range. -/
theorem patch_snippets_empty_iff (funcNodes : List (Nat × Nat))
    (sourceText patchDiff : Str)
    (hfn : ∀ c ∈ funcNodes, c.1 < c.2) :
    find_functions_for_patch funcNodes sourceText patchDiff = some [] ↔
      (sourceText = [] ∨ patchDiff = [] ∨
       extract_old_ranges patchDiff = [] ∨
       ∀ r ∈ extract_old_ranges patchDiff, ∀ rs re2,
         range_to_bytes (offsetsFrom 0 (splitKeep sourceText))
           (splitKeep sourceText) (utf8Encode sourceText).length r.1 r.2
           = some (rs, re2) →
         ∀ c ∈ funcNodes ++ _find_macro_blocks sourceText,
           ¬ byteOverlap rs re2 c.1 c.2) := by
  by_cases hsrc : sourceText = []
  · constructor
    · intro _
      exact Or.inl hsrc
    · intro _
      unfold find_functions_for_patch find_functions_for_patch_tagged
      rw [hsrc]
      rfl
  by_cases hpd : patchDiff = []
  · constructor
    · intro _
      exact Or.inr (Or.inl hpd)
    · intro _
      unfold find_functions_for_patch find_functions_for_patch_tagged
      rw [hpd]
      simp
  by_cases hro : extract_old_ranges patchDiff = []
  · constructor
    · intro _
      exact Or.inr (Or.inr (Or.inl hro))
    · intro _
      unfold find_functions_for_patch find_functions_for_patch_tagged
      have hs : sourceText.isEmpty = false := by
        cases sourceText with
        | nil => exact absurd rfl hsrc
        | cons a b => rfl
      have hp : patchDiff.isEmpty = false := by
        cases patchDiff with
        | nil => exact absurd rfl hpd
        | cons a b => rfl
      rw [hro]
      simp [hs, hp]
  have hs : sourceText.isEmpty = false := by
    cases sourceText with
    | nil => exact absurd rfl hsrc
    | cons a b => rfl
  have hp : patchDiff.isEmpty = false := by
    cases patchDiff with
    | nil => exact absurd rfl hpd
    | cons a b => rfl
  have hr : (extract_old_ranges patchDiff).isEmpty = false := by
    cases hc : extract_old_ranges patchDiff with
    | nil => exact absurd hc hro
    | cons a b => rfl
  unfold find_functions_for_patch find_functions_for_patch_tagged
  rw [hs, hp, hr]
  simp only [Bool.or_self, Bool.false_eq_true, if_false]
  constructor
  · intro hmain
    refine Or.inr (Or.inr (Or.inr ?_))
    intro r hrmem rs re2 hrtb c hcmem hov
    cases hloop : rangesLoop (utf8Encode sourceText)
        (offsetsFrom 0 (splitKeep sourceText)) (splitKeep sourceText)
        (utf8Encode sourceText).length funcNodes
        (_find_macro_blocks sourceText) (extract_old_ranges patchDiff) [] [] with
    | none =>
      rw [hloop] at hmain
      simp at hmain
    | some out =>
      rw [hloop] at hmain
      simp only [Option.map_some', Option.some.injEq] at hmain
      have hout2 : out.2 = [] := List.map_eq_nil.mp hmain
      have hall := rangesLoop_empty_nohit (utf8Encode sourceText)
        (offsetsFrom 0 (splitKeep sourceText)) (splitKeep sourceText)
        (utf8Encode sourceText).length funcNodes
        (_find_macro_blocks sourceText) (extract_old_ranges patchDiff) [] []
        out (by simp) hloop hout2
      have hlt2 : rs < re2 := by
        unfold byteOverlap at hov
        omega
      have hfalse := hall r hrmem rs re2 hrtb hlt2 c hcmem
      have hhit := byteOverlap_codeHit hov
      rw [hfalse] at hhit
      exact Bool.false_ne_true hhit
  · intro hrhs
    rcases hrhs with h | h | h | hnone
    · exact absurd h hsrc
    · exact absurd h hpd
    · exact absurd h hro
    have hlines : splitKeep sourceText ≠ [] := splitKeep_ne_nil sourceText hsrc
    have hlen : (offsetsFrom 0 (splitKeep sourceText)).length
        = (splitKeep sourceText).length := offsetsFrom_length _ _
    have hpos : 1 ≤ (offsetsFrom 0 (splitKeep sourceText)).length := by
      rw [hlen]
      exact List.length_pos.mpr hlines
    have ht : ∀ r ∈ extract_old_ranges patchDiff, ∃ rr,
        range_to_bytes (offsetsFrom 0 (splitKeep sourceText))
          (splitKeep sourceText) (utf8Encode sourceText).length r.1 r.2
          = some rr := by
      intro r hrm
      obtain ⟨h0, h1⟩ := extract_old_ranges_bounds patchDiff r hrm
      obtain ⟨rs, re2, hx⟩ := range_to_bytes_total
        (offsetsFrom 0 (splitKeep sourceText)) (splitKeep sourceText)
        (utf8Encode sourceText).length r.1 r.2 hlen hpos h0 h1
      exact ⟨(rs, re2), hx⟩
    have hh : ∀ r ∈ extract_old_ranges patchDiff, ∀ rs re2,
        range_to_bytes (offsetsFrom 0 (splitKeep sourceText))
          (splitKeep sourceText) (utf8Encode sourceText).length r.1 r.2
          = some (rs, re2) →
        rs < re2 →
        ∀ c ∈ funcNodes ++ _find_macro_blocks sourceText,
          codeHit rs re2 c.1 c.2 = false := by
      intro r hrm rs re2 hrtb hlt c hcmem
      have hce : c.1 < c.2 := by
        rcases List.mem_append.mp hcmem with h | h
        · exact hfn c h
        · exact macro_blocks_lt sourceText c h
      by_contra hcontra
      rw [Bool.not_eq_false] at hcontra
      exact hnone r hrm rs re2 hrtb c hcmem
        ((byteOverlap_iff rs re2 c.1 c.2 hlt hce).mpr hcontra)
    obtain ⟨seenF, hloop⟩ := rangesLoop_noop (utf8Encode sourceText)
      (offsetsFrom 0 (splitKeep sourceText)) (splitKeep sourceText)
      (utf8Encode sourceText).length funcNodes
      (_find_macro_blocks sourceText) (extract_old_ranges patchDiff) [] []
      ht hh
    rw [hloop]
    rfl

/-- Concrete instance of `patch_snippets_empty_iff`: an empty diff
yields an empty snippet list for a two-line source. -/
theorem patch_snippets_empty_iff_witness :
    find_functions_for_patch [((0 : Nat), (3 : Nat))] ("ab\ncd\n").data [] 
      = some [] :=
  (patch_snippets_empty_iff [(0, 3)] ("ab\ncd\n").data [] (by decide)).mpr
    (Or.inr (Or.inl rfl))

/-- Concrete instance of `multiline_trim_and_absent`: a buffer of one
real line and one blank line is trimmed and joined, and a document whose
patch-diff block holds a real line never stores the empty string. -/
theorem multiline_trim_and_absent_witness :
    (finalizeField initMeta5 kPatchDiff [("a").data, [' ']]).lookup kPatchDiff
      = some (some (joinLines (trimTrailingBlank [("a").data, [' ']]))) ∧
    (extract_cve_meta ("/**\n * @patch-diff |\n * a\n */").data).lookup
      kPatchDiff ≠ some (some []) := by
  constructor
  · exact multiline_trim_and_absent.2.2.2.1 initMeta5 kPatchDiff
      [("a").data, [' ']] (by decide) (by decide)
  · exact (multiline_trim_and_absent.2.2.2.2
      (("/**\n * @patch-diff |\n * a\n */").data)).1

end Agent
